import Mathlib

/-!
Verification of the `nukilabs/hashmap` repository: an open-addressed hash
table with triangular (quadratic) probing, a rapidhash-based string hasher,
and a 24-bit mask/sentinel layer, modelled faithfully as a shallow
embedding.  Keys and byte strings are modelled as Lean types with
decidable equality; machine integers are `Nat` with explicit `% 2 ^ w`
where Go would truncate; the Go table slice becomes a `List` of optional
pairs.
-/

set_option linter.unusedSectionVars false
set_option linter.unusedVariables false

namespace Hashmap

/-- Embeds `initialCapacity` (src/unnamed/part_000:12). -/
def initialCapacity : Nat := 8

/-- Embeds `maximumLoad` (src/unnamed/part_000:13): the table expands at 50% load. -/
def maximumLoad : Nat := 2

/-- Embeds `Pair` (src/unnamed/part_000:17-20): one occupied slot. -/
structure Pair (K V : Type) where
  Key : K
  Value : V
deriving DecidableEq

/-- Embeds `HashMap` (src/unnamed/part_000:24-28).  The Go slice
`table []*Pair[K,V]` is a list of `Option (Pair K V)`; `nil` becomes `none`. -/
structure HashMap (K V : Type) where
  table : List (Option (Pair K V))
  size : Nat
  capacity : Nat
deriving DecidableEq

variable {K V : Type} [DecidableEq K] [DecidableEq V]

/-- Fresh table of a given capacity, as built by `make([]*Pair[K,V], cap)`. -/
def mkTable (cap : Nat) : HashMap K V :=
  { table := List.replicate cap none, size := 0, capacity := cap }

/-- Embeds `New` (src/unnamed/part_000:31-36). -/
def New : HashMap K V := mkTable initialCapacity

/-- Embeds `index` (src/unnamed/part_000:50-52): `hash & uint32(capacity-1)`.
The cast `uint32(h.capacity-1)` is the explicit `% 2 ^ 32`. -/
def index (h : HashMap K V) (hash : Nat) : Nat :=
  hash &&& ((h.capacity - 1) % 2 ^ 32)

/-- Embeds the probe loop of `find` (src/unnamed/part_000:61-75).  Go's
unbounded `for` loop is modelled with a fuel argument; `find` supplies
`fuel = capacity`, and because the loop breaks as soon as `count`
reaches `capacity`, the fuel is never exhausted (each recursive call
keeps `count + fuel = capacity`, so `fuel > 0` whenever the loop would
continue). -/
def findAux (t : List (Option (Pair K V))) (cap : Nat) (key : K) :
    Nat → Nat → Nat → Nat × Bool
  | idx, _, 0 => (idx, false)
  | idx, count, fuel+1 =>
    match t.getD idx none with
    | none => (idx, false)
    | some p =>
      if p.Key = key then (idx, true)
      else if count + 1 ≥ cap then (idx, false)
      else findAux t cap key ((idx + (count + 1)) &&& (cap - 1)) (count + 1) fuel

/-- Embeds `find` (src/unnamed/part_000:56-78).  The hash function is an
explicit parameter `hf` standing for the type-switch method `HashMap.hash`
(src/unnamed/part_000:40-47); since Go's `hash` returns `uint32`, the value
is reduced `% 2 ^ 32`. -/
def find (hf : K → Nat) (h : HashMap K V) (key : K) : Nat × Bool :=
  findAux h.table h.capacity key (index h (hf key % 2 ^ 32)) 0 h.capacity

/-- The part of `Set` after the load-factor check (src/unnamed/part_000:102-112):
locate the slot; on a hit overwrite only the value; otherwise occupy the
returned empty slot and increment `size`. -/
def setBody (hf : K → Nat) (h : HashMap K V) (key : K) (value : V) : HashMap K V :=
  let r := find hf h key
  if r.2 then
    match h.table.getD r.1 none with
    | some p => { h with table := h.table.set r.1 (some ⟨p.Key, value⟩) }
    | none => h
  else
    { h with table := h.table.set r.1 (some ⟨key, value⟩), size := h.size + 1 }

/-- Embeds `Set` (src/unnamed/part_000:97-113) together with `rehash`
(src/unnamed/part_000:81-92), which mutually recurse in Go (`rehash`
re-inserts every pair through `Set`).  The mutual recursion is modelled
with a fuel argument; `Set` supplies fuel `3`, which is never exhausted:
under the load invariant (proved below) a `Set` triggers at most one
rehash and the re-insertions inside a rehash never trigger another. -/
def SetF : Nat → (K → Nat) → HashMap K V → K → V → HashMap K V
  | 0, _, h, _, _ => h
  | fuel+1, hf, h, key, value =>
    setBody hf
      (if (h.size + 1) * maximumLoad ≥ h.capacity then
        h.table.foldl
          (fun acc o =>
            match o with
            | none => acc
            | some p => SetF fuel hf acc p.Key p.Value)
          (mkTable (h.capacity * 2))
       else h) key value

/-- Embeds `rehash` (src/unnamed/part_000:81-92): double the capacity,
allocate a fresh empty table with `size = 0`, then re-insert every
occupied pair of the old table, in slot order, through `Set`. -/
def rehash (fuel : Nat) (hf : K → Nat) (h : HashMap K V) : HashMap K V :=
  h.table.foldl
    (fun acc o =>
      match o with
      | none => acc
      | some p => SetF fuel hf acc p.Key p.Value)
    (mkTable (h.capacity * 2))

/-- Embeds `Set` (src/unnamed/part_000:97-113) at the fuel used throughout. -/
def Set (hf : K → Nat) (h : HashMap K V) (key : K) (value : V) : HashMap K V :=
  SetF 3 hf h key value

/-- Embeds `Get` (src/unnamed/part_000:117-124).  Go returns the zero value
of `V` together with `false` when the key is missing; the zero value is
modelled as `none` and a hit as `some value`. -/
def Get (hf : K → Nat) (h : HashMap K V) (key : K) : Option V × Bool :=
  let r := find hf h key
  if r.2 then
    match h.table.getD r.1 none with
    | some p => (some p.Value, true)
    | none => (none, true)
  else (none, false)

/-- Embeds `Contains` (src/unnamed/part_000:127-130). -/
def Contains (hf : K → Nat) (h : HashMap K V) (key : K) : Bool :=
  (find hf h key).2

/-- Embeds `Delete` (src/unnamed/part_000:134-143): probe; on a hit clear
the slot to `nil` and decrement `size`, returning `true`; otherwise
return `false` with no change. -/
def Delete (hf : K → Nat) (h : HashMap K V) (key : K) : HashMap K V × Bool :=
  let r := find hf h key
  if r.2 then
    ({ h with table := h.table.set r.1 none, size := h.size - 1 }, true)
  else (h, false)

/-- Embeds `Clear` (src/unnamed/part_000:146-150). -/
def Clear (h : HashMap K V) : HashMap K V := mkTable initialCapacity

/-- Embeds `Size` (src/unnamed/part_000:153-155). -/
def Size (h : HashMap K V) : Nat := h.size

/-- Embeds `Capacity` (src/unnamed/part_000:158-160). -/
def Capacity (h : HashMap K V) : Nat := h.capacity

/-- Embeds `Iter` (src/unnamed/part_000:163-173): the sequence of pairs the
iterator yields, i.e. the non-nil slots in raw bucket order. -/
def Iter (h : HashMap K V) : List (Pair K V) := h.table.filterMap id

/-- Embeds the `default:` branch of `HashMap.hash`
(src/unnamed/part_000:44-45): every key of a non-string type hashes to
the constant 0. -/
def hashDefault {K : Type} : K → Nat := fun _ => 0

/-- Embeds `SEED` (src/internal/rapidhash/rapidhash.go:8). -/
def SEED : Nat := 0xbdd89aa982704029

/-- Embeds `secret[0]` (src/internal/rapidhash/rapidhash.go:11). -/
def secret0 : Nat := 0x2d358dccaa6c78a5

/-- Embeds `secret[1]` (src/internal/rapidhash/rapidhash.go:12). -/
def secret1 : Nat := 0x8bb84b93962eacc9

/-- Embeds `secret[2]` (src/internal/rapidhash/rapidhash.go:13). -/
def secret2 : Nat := 0x4b33a62ed433d4a3

/-- Embeds `Mul128` (src/internal/rapidhash/rapidhash.go:16-19): the full
128-bit product of two `uint64` values as `(lo, hi)`. -/
def mul128 (a b : Nat) : Nat × Nat := (a * b % 2 ^ 64, a * b / 2 ^ 64)

/-- Embeds `Mix` (src/internal/rapidhash/rapidhash.go:21-24). -/
def mix (a b : Nat) : Nat :=
  let m := mul128 a b
  m.1 ^^^ m.2

/-- Little-endian 32-bit read, embedding `binary.LittleEndian.Uint32`
applied to a 4-byte window of the data at a given offset. -/
def le32 (d : List Nat) (o : Nat) : Nat :=
  d.getD o 0 + 2 ^ 8 * d.getD (o + 1) 0 + 2 ^ 16 * d.getD (o + 2) 0 +
    2 ^ 24 * d.getD (o + 3) 0

/-- Little-endian 64-bit read, embedding `binary.LittleEndian.Uint64`. -/
def le64 (d : List Nat) (o : Nat) : Nat := le32 d o + 2 ^ 32 * le32 d (o + 4)

/-- Embeds the 48-byte block loop of `Hash`
(src/internal/rapidhash/rapidhash.go:55-64).  Go's loop `for i >= 48`
is modelled with fuel; every iteration consumes one fuel unit and 48
bytes, so fuel `= length ≥ i` is never exhausted.  Returns the final
`(i, seed, see1, see2)`. -/
def blockLoop (d : List Nat) (length : Nat) :
    Nat → Nat → Nat → Nat → Nat → Nat × Nat × Nat × Nat
  | 0, i, s, s1, s2 => (i, s, s1, s2)
  | fuel+1, i, s, s1, s2 =>
    if i ≥ 48 then
      let o := length - i
      blockLoop d length fuel (i - 48)
        (mix (le64 d o ^^^ secret0) (le64 d (o + 8) ^^^ s))
        (mix (le64 d (o + 16) ^^^ secret1) (le64 d (o + 24) ^^^ s1))
        (mix (le64 d (o + 32) ^^^ secret2) (le64 d (o + 40) ^^^ s2))
    else (i, s, s1, s2)

/-- Embeds `Hash` (src/internal/rapidhash/rapidhash.go:27-86), the
rapidhash mixing function, on a byte list.  All `uint64` arithmetic is
`Nat` arithmetic; every operation (`^^^`, `|||`, `<<<` into disjoint
ranges, `mix`) keeps values below `2 ^ 64`, and the only multiplication
is reduced explicitly inside `mul128`. -/
def Hash (data : List Nat) (seedIn : Nat) : Nat :=
  let length := data.length
  let seedA := seedIn ^^^ mix (seedIn ^^^ secret0) secret1 ^^^ length
  let abs : Nat × Nat × Nat :=
    if length ≤ 16 then
      if length ≥ 4 then
        let a := (le32 data 0 <<< 32) ||| le32 data (length - 4)
        let delta := (length &&& 24) >>> (length >>> 3)
        let b := (le32 data delta <<< 32) ||| le32 data (length - 4 - delta)
        (a, b, seedA)
      else if length > 0 then
        let k := length
        ((data.getD 0 0 <<< 56) ||| (data.getD (k >>> 1) 0 <<< 32) ||| data.getD (k - 1) 0,
          0, seedA)
      else (0, 0, seedA)
    else
      let afterBlocks : Nat × Nat :=
        if length > 48 then
          let r := blockLoop data length length length seedA seedA seedA
          (r.1, r.2.1 ^^^ r.2.2.1 ^^^ r.2.2.2)
        else (length, seedA)
      let i := afterBlocks.1
      let sB := afterBlocks.2
      let sT :=
        if i > 16 then
          let o := length - i
          let s := mix (le64 data o ^^^ secret2) (le64 data (o + 8) ^^^ sB ^^^ secret1)
          if i > 32 then mix (le64 data (o + 16) ^^^ secret2) (le64 data (o + 24) ^^^ s)
          else s
        else sB
      (le64 data (length - 16), le64 data (length - 8), sT)
  let a := abs.1 ^^^ secret1
  let b := abs.2.1 ^^^ abs.2.2
  let m := mul128 a b
  mix (m.1 ^^^ secret0 ^^^ length) (m.2 ^^^ secret1)

/-- Follows the words of claim C7 (not the source): identical to `Hash`
except that the block phase is entered already when *at least* 48 bytes
remain (`length ≥ 48`), so that an input of exactly 48 bytes is processed
as one block.  The source guard (src/internal/rapidhash/rapidhash.go:51)
is `i > 48`.  Used to refute the claim by comparison with `Hash`. -/
def HashClaim (data : List Nat) (seedIn : Nat) : Nat :=
  let length := data.length
  let seedA := seedIn ^^^ mix (seedIn ^^^ secret0) secret1 ^^^ length
  let abs : Nat × Nat × Nat :=
    if length ≤ 16 then
      if length ≥ 4 then
        let a := (le32 data 0 <<< 32) ||| le32 data (length - 4)
        let delta := (length &&& 24) >>> (length >>> 3)
        let b := (le32 data delta <<< 32) ||| le32 data (length - 4 - delta)
        (a, b, seedA)
      else if length > 0 then
        let k := length
        ((data.getD 0 0 <<< 56) ||| (data.getD (k >>> 1) 0 <<< 32) ||| data.getD (k - 1) 0,
          0, seedA)
      else (0, 0, seedA)
    else
      let afterBlocks : Nat × Nat :=
        if length ≥ 48 then
          let r := blockLoop data length length length seedA seedA seedA
          (r.1, r.2.1 ^^^ r.2.2.1 ^^^ r.2.2.2)
        else (length, seedA)
      let i := afterBlocks.1
      let sB := afterBlocks.2
      let sT :=
        if i > 16 then
          let o := length - i
          let s := mix (le64 data o ^^^ secret2) (le64 data (o + 8) ^^^ sB ^^^ secret1)
          if i > 32 then mix (le64 data (o + 16) ^^^ secret2) (le64 data (o + 24) ^^^ s)
          else s
        else sB
      (le64 data (length - 16), le64 data (length - 8), sT)
  let a := abs.1 ^^^ secret1
  let b := abs.2.1 ^^^ abs.2.2
  let m := mul128 a b
  mix (m.1 ^^^ secret0 ^^^ length) (m.2 ^^^ secret1)

/-- Embeds `FlagCount` (src/internal/stringhasher/stringhasher.go:5). -/
def FlagCount : Nat := 8

/-- Embeds `MaskTop8Bits` (src/internal/stringhasher/stringhasher.go:13-27):
keep only the bottom 24 bits and avoid returning 0 by substituting
`0x80000000 >> FlagCount`. -/
def MaskTop8Bits (result : Nat) : Nat :=
  let r := result &&& ((1 <<< (32 - FlagCount)) - 1)
  if r = 0 then 0x80000000 >>> FlagCount else r

/-- Embeds `ComputeHashAndMaskTop8Bits` (src/internal/stringhasher/stringhasher.go:7-9). -/
def ComputeHashAndMaskTop8Bits (data : List Nat) (seed : Nat) : Nat :=
  MaskTop8Bits (Hash data seed)

/-- Modelled from the spec: the ASCII case-normalization transform of the
`CaseFolder` collaborator (spec section 4.3), whose source
(`traits.CaseFoldingHash`) is not under `src/`.  Uppercase ASCII letters
are mapped to lowercase; other bytes are unchanged. -/
def foldCase (c : Nat) : Nat := if 65 ≤ c ∧ c ≤ 90 then c + 32 else c

/-- Modelled from the spec: `traits.CaseFoldingHash`
(src/unnamed/part_000:43 calls it; its source is not under `src/`).  Per
spec section 4.3 it applies a case-normalization transform to the key's
bytes and feeds the result through MixHash (`Hash`) with the fixed
default seed and CodeMask (`MaskTop8Bits`). -/
def CaseFoldingHash (s : List Nat) : Nat :=
  ComputeHashAndMaskTop8Bits (s.map foldCase) SEED

/-- Embeds the `case string:` branch of `HashMap.hash`
(src/unnamed/part_000:42-43), with strings modelled as byte lists. -/
def hashString : List Nat → Nat := CaseFoldingHash

/-- Follows the words of the spec's probe-sequence description: for
increasing step count `i = 0, 1, 2, …` visit slot `pos i`; at an empty
slot report "not found, here"; at a slot holding the target key report
"found, here"; terminate unsuccessfully after visiting `capacity`
slots.  The position function `pos` is a parameter so that both the
claim's formula and the corrected one can be compared with `find`. -/
def specProbe (t : List (Option (Pair K V))) (cap : Nat) (key : K) (pos : Nat → Nat) :
    Nat → Nat → Nat × Bool
  | i, 0 => (pos i, false)
  | i, fuel+1 =>
    match t.getD (pos i) none with
    | none => (pos i, false)
    | some p =>
      if p.Key = key then (pos i, true)
      else if i + 1 ≥ cap then (pos i, false)
      else specProbe t cap key pos (i + 1) fuel

/-- The corrected probe sequence: the `i`-th probe visits
`(initial_index + i*(i+1)/2) & (capacity - 1)` — triangular offsets, as
the source's `idx = (idx + count) & (capacity - 1)` accumulates. -/
def triangularSearch (hf : K → Nat) (h : HashMap K V) (key : K) : Nat × Bool :=
  let init := index h (hf key % 2 ^ 32)
  specProbe h.table h.capacity key
    (fun i => (init + i * (i + 1) / 2) &&& (h.capacity - 1)) 0 h.capacity

/-- Follows the words of claim C2 (not the source): the `i`-th probe
visits `(initial_index + i) & (capacity - 1)` — a linear sequence.
Used to refute the claim by comparison with `find`. -/
def linearSearchClaim (hf : K → Nat) (h : HashMap K V) (key : K) : Nat × Bool :=
  let init := index h (hf key % 2 ^ 32)
  specProbe h.table h.capacity key
    (fun i => (init + i) &&& (h.capacity - 1)) 0 h.capacity

/-- Tables reachable from `New` by the mutating public operations
(`Get`/`Contains`/`Iter` do not mutate). -/
inductive Reachable (hf : K → Nat) : HashMap K V → Prop
  | new : Reachable hf New
  | set (h : HashMap K V) (k : K) (v : V) :
      Reachable hf h → Reachable hf (Set hf h k v)
  | del (h : HashMap K V) (k : K) :
      Reachable hf h → Reachable hf (Delete hf h k).1
  | clear (h : HashMap K V) :
      Reachable hf h → Reachable hf (Clear h)

/-- Tables reachable from `New` without any `Delete`. -/
inductive ReachableND (hf : K → Nat) : HashMap K V → Prop
  | new : ReachableND hf New
  | set (h : HashMap K V) (k : K) (v : V) :
      ReachableND hf h → ReachableND hf (Set hf h k v)
  | clear (h : HashMap K V) :
      ReachableND hf h → ReachableND hf (Clear h)

/-- Number of occupied (non-nil) slots of a table. -/
def occCount (t : List (Option (Pair K V))) : Nat := (t.filterMap id).length

/-- Keys stored in a table, in bucket order. -/
def keysList (t : List (Option (Pair K V))) : List K :=
  (t.filterMap id).map Pair.Key

/-- A slot at which the probe loop stops for `key`: empty, or holding `key`. -/
def stops (t : List (Option (Pair K V))) (key : K) (j : Nat) : Prop :=
  t.getD j none = none ∨ ∃ p, t.getD j none = some p ∧ p.Key = key

/-- The structural invariant of a table: the slice length equals the
capacity, the capacity is a power of two and at least 8, the tracked
size counts the occupied slots, and the load factor stays below 50%. -/
structure InvCore (h : HashMap K V) : Prop where
  len : h.table.length = h.capacity
  pow : ∃ n, h.capacity = 2 ^ n
  cap8 : 8 ≤ h.capacity
  sz : h.size = occCount h.table
  load : h.size * 2 < h.capacity

/-- Every stored key can be found by probing.  This holds for delete-free
histories; a `Delete` can break it (the no-tombstone gap). -/
def Findable (hf : K → Nat) (h : HashMap K V) : Prop :=
  ∀ k, k ∈ keysList h.table → (find hf h k).2 = true

/-- Invariant for tables reachable without `Delete`: core invariant,
pairwise-distinct keys, and every stored key findable. -/
def InvND (hf : K → Nat) (h : HashMap K V) : Prop :=
  InvCore h ∧ (keysList h.table).Nodup ∧ Findable hf h

/-- Follows the spec's words for the long-input block phase (claim C7):
split the buffer, from the front, into 48-byte blocks while at least 48
bytes remain, returning the blocks and the remainder. -/
def chunks48 (l : List Nat) : List (List Nat) × List Nat :=
  if h : 48 ≤ l.length then
    let r := chunks48 (l.drop 48)
    (l.take 48 :: r.1, r.2)
  else ([], l)
termination_by l.length
decreasing_by
  simp only [List.length_drop]
  omega

/-- One 48-byte block update of the three rolling seeds, following the
spec's words: each seed is updated by mixing two 8-byte little-endian
words XORed against a distinct secret constant and the previous rolling
value. -/
def blockStep (acc : Nat × Nat × Nat) (blk : List Nat) : Nat × Nat × Nat :=
  (mix (le64 blk 0 ^^^ secret0) (le64 blk 8 ^^^ acc.1),
   mix (le64 blk 16 ^^^ secret1) (le64 blk 24 ^^^ acc.2.1),
   mix (le64 blk 32 ^^^ secret2) (le64 blk 40 ^^^ acc.2.2))

/-- The long-input (`length > 16`) path of `Hash`, structured the way
the amended claim C7 describes it: when the input is longer than 48
bytes, fold the three rolling seeds over the leading 48-byte blocks and
XOR them together; then on the remainder perform one mixing pass against
`secret2`/`secret1` when more than 16 bytes remain, plus one additional
pass against `secret2` when more than 32 bytes remain; finally combine
the last 16 bytes of the whole buffer. -/
def HashStruct (data : List Nat) (seedIn : Nat) : Nat :=
  let length := data.length
  let seedA := seedIn ^^^ mix (seedIn ^^^ secret0) secret1 ^^^ length
  let br : List (List Nat) × List Nat :=
    if length > 48 then chunks48 data else ([], data)
  let tr := br.1.foldl blockStep (seedA, seedA, seedA)
  let sB := tr.1 ^^^ tr.2.1 ^^^ tr.2.2
  let rem := br.2
  let i := rem.length
  let sT :=
    if i > 16 then
      let s := mix (le64 rem 0 ^^^ secret2) (le64 rem 8 ^^^ sB ^^^ secret1)
      if i > 32 then mix (le64 rem 16 ^^^ secret2) (le64 rem 24 ^^^ s) else s
    else sB
  let a := le64 data (length - 16) ^^^ secret1
  let b := le64 data (length - 8) ^^^ sT
  let m := mul128 a b
  mix (m.1 ^^^ secret0 ^^^ length) (m.2 ^^^ secret1)


/-- Scenario A (claim C4): the four string keys "a", "b", "c", "d" as
byte lists. -/
def keyA : List Nat := [97]

/-- Scenario A: the byte string "b". -/
def keyB : List Nat := [98]

/-- Scenario A: the byte string "c". -/
def keyC : List Nat := [99]

/-- Scenario A: the byte string "d". -/
def keyD : List Nat := [100]

/-- Scenario A state after `set("a",1)`. -/
def scenA1 : HashMap (List Nat) Nat := Set hashString New keyA 1

/-- Scenario A state after `set("b",2)`. -/
def scenA2 : HashMap (List Nat) Nat := Set hashString scenA1 keyB 2

/-- Scenario A state after `set("c",3)`. -/
def scenA3 : HashMap (List Nat) Nat := Set hashString scenA2 keyC 3

/-- Scenario A state after `set("d",4)`. -/
def scenA4 : HashMap (List Nat) Nat := Set hashString scenA3 keyD 4


/-! ### List-level helper lemmas -/

theorem SetF_succ (fuel : Nat) (hf : K → Nat) (h : HashMap K V) (key : K) (value : V) :
    SetF (fuel + 1) hf h key value =
      setBody hf
        (if (h.size + 1) * maximumLoad ≥ h.capacity then rehash fuel hf h else h)
        key value := rfl

theorem getD_replicate_none {A : Type} (n i : Nat) :
    (List.replicate n (none : Option A)).getD i none = none := by
  simp only [List.getD_eq_getElem?_getD, List.getElem?_replicate]
  split <;> rfl

theorem getD_set_self {A : Type} (l : List (Option A)) (i : Nat) (a : Option A)
    (h : i < l.length) : (l.set i a).getD i none = a := by
  simp [List.getD_eq_getElem?_getD, List.getElem?_set_self h]

theorem getD_set_ne {A : Type} (l : List (Option A)) (i j : Nat) (a : Option A)
    (h : i ≠ j) : (l.set i a).getD j none = l.getD j none := by
  simp [List.getD_eq_getElem?_getD, List.getElem?_set_ne h]

theorem getD_some_lt {A : Type} {l : List (Option A)} {i : Nat} {a : A}
    (h : l.getD i none = some a) : i < l.length := by
  by_contra hge
  rw [List.getD_eq_getElem?_getD, List.getElem?_eq_none (by omega)] at h
  simp at h

theorem getD_some_mem {A : Type} : ∀ {l : List (Option A)} {i : Nat} {a : A},
    l.getD i none = some a → a ∈ l.filterMap id
  | [], i, a, h => by simp [List.getD] at h
  | o :: l, 0, a, h => by
    simp [List.getD] at h
    subst h
    simp
  | o :: l, i + 1, a, h => by
    have ih := getD_some_mem (l := l) (i := i) (a := a) h
    cases o with
    | none => exact ih
    | some q => exact List.mem_cons_of_mem q ih

theorem occCount_replicate {n : Nat} :
    occCount (List.replicate n (none : Option (Pair K V))) = 0 := by
  induction n with
  | zero => rfl
  | succ m ih => simpa [occCount, List.replicate_succ, List.filterMap_cons] using ih

theorem occCount_le_length (t : List (Option (Pair K V))) : occCount t ≤ t.length := by
  induction t with
  | nil => simp [occCount]
  | cons o l ih =>
    cases o <;> simp [occCount, List.filterMap_cons] at ih ⊢ <;> omega

theorem exists_empty_slot : ∀ (t : List (Option (Pair K V))),
    occCount t < t.length → ∃ j, j < t.length ∧ t.getD j none = none
  | [], h => by simp [occCount] at h
  | none :: l, _ => ⟨0, by simp [List.getD]⟩
  | some p :: l, h => by
    have hl : occCount l < l.length := by
      simpa [occCount, List.filterMap_cons] using h
    obtain ⟨j, hj, hget⟩ := exists_empty_slot l hl
    exact ⟨j + 1, by simpa using hj, by simpa [List.getD] using hget⟩

theorem filterMap_set_none_insert :
    ∀ (t : List (Option (Pair K V))) (e : Nat) (p : Pair K V),
      t.getD e none = none → e < t.length →
      ((t.set e (some p)).filterMap id).Perm (p :: t.filterMap id)
  | [], e, p, _, hlt => by simp at hlt
  | none :: l, 0, p, _, _ => by simp [List.filterMap_cons]
  | some q :: l, 0, p, he, _ => by simp [List.getD] at he
  | o :: l, e + 1, p, he, hlt => by
    have ih := filterMap_set_none_insert l e p (by simpa [List.getD] using he)
      (by simpa using hlt)
    cases o with
    | none => simpa [List.filterMap_cons] using ih
    | some q =>
      simp only [List.set_cons_succ, List.filterMap_cons_some, id_eq]
      exact (ih.cons q).trans (List.Perm.swap p q _)

theorem occCount_set_some_of_none (t : List (Option (Pair K V))) (e : Nat) (p : Pair K V)
    (he : t.getD e none = none) (hlt : e < t.length) :
    occCount (t.set e (some p)) = occCount t + 1 := by
  have := (filterMap_set_none_insert t e p he hlt).length_eq
  simpa [occCount] using this

theorem occCount_set_some_of_some :
    ∀ (t : List (Option (Pair K V))) (e : Nat) (p q : Pair K V),
      t.getD e none = some q → occCount (t.set e (some p)) = occCount t
  | [], e, p, q, h => by simp [List.getD] at h
  | none :: l, 0, p, q, h => by simp [List.getD] at h
  | some r :: l, 0, p, q, _ => by simp [occCount, List.filterMap_cons]
  | o :: l, e + 1, p, q, h => by
    have ih := occCount_set_some_of_some l e p q (by simpa [List.getD] using h)
    cases o <;> simpa [occCount, List.filterMap_cons] using ih

theorem occCount_set_none_of_some :
    ∀ (t : List (Option (Pair K V))) (e : Nat) (q : Pair K V),
      t.getD e none = some q → occCount (t.set e none) + 1 = occCount t
  | [], e, q, h => by simp [List.getD] at h
  | none :: l, 0, q, h => by simp [List.getD] at h
  | some r :: l, 0, q, _ => by simp [occCount, List.filterMap_cons]
  | o :: l, e + 1, q, h => by
    have ih := occCount_set_none_of_some l e q (by simpa [List.getD] using h)
    cases o <;> simpa [occCount, List.filterMap_cons] using ih

theorem keysList_set_some_of_some :
    ∀ (t : List (Option (Pair K V))) (e : Nat) (p q : Pair K V),
      t.getD e none = some q → p.Key = q.Key →
      keysList (t.set e (some p)) = keysList t
  | [], e, p, q, h, _ => by simp [List.getD] at h
  | none :: l, 0, p, q, h, _ => by simp [List.getD] at h
  | some r :: l, 0, p, q, h, hk => by
    simp [List.getD] at h
    subst h
    simp [keysList, List.filterMap_cons, hk]
  | o :: l, e + 1, p, q, h, hk => by
    have ih := keysList_set_some_of_some l e p q (by simpa [List.getD] using h) hk
    cases o <;> simpa [keysList, List.filterMap_cons] using ih

theorem keysList_set_none_insert (t : List (Option (Pair K V))) (e : Nat) (p : Pair K V)
    (he : t.getD e none = none) (hlt : e < t.length) :
    (keysList (t.set e (some p))).Perm (p.Key :: keysList t) :=
  (filterMap_set_none_insert t e p he hlt).map Pair.Key

theorem keysList_replicate {n : Nat} :
    keysList (List.replicate n (none : Option (Pair K V))) = [] := by
  induction n with
  | zero => rfl
  | succ m ih => simpa [keysList, List.replicate_succ, List.filterMap_cons] using ih

/-! ### Arithmetic: masking and triangular-probe coverage -/

theorem and_mask_eq_mod (x n : Nat) : x &&& (2 ^ n - 1) = x % 2 ^ n :=
  Nat.and_pow_two_sub_one_eq_mod x n

/-- Triangular step: `T (c+1) = T c + (c + 1)` for `T m = m*(m+1)/2`. -/
theorem tri_succ (c : Nat) : (c + 1) * (c + 2) / 2 = c * (c + 1) / 2 + (c + 1) := by
  have h1 : 2 * (c * (c + 1) / 2) = c * (c + 1) :=
    Nat.mul_div_cancel' (even_iff_two_dvd.mp (Nat.even_mul_succ_self c))
  have h2 : 2 * ((c + 1) * (c + 1 + 1) / 2) = (c + 1) * (c + 1 + 1) :=
    Nat.mul_div_cancel' (even_iff_two_dvd.mp (Nat.even_mul_succ_self (c + 1)))
  have h3 : (c + 1) * (c + 2) = c * (c + 1) + 2 * (c + 1) := by ring
  omega

/-- Auxiliary ordered form of the triangular-offset injectivity. -/
theorem tri_mod_inj_le {n i d : Nat} (hj : i + d < 2 ^ n)
    (hmod : i * (i + 1) / 2 ≡ (i + d) * (i + d + 1) / 2 [MOD 2 ^ n]) : d = 0 := by
  by_contra hne
  have hdpos : 0 < d := by omega
  set j := i + d with hjdef
  have hTle : i * (i + 1) / 2 ≤ j * (j + 1) / 2 :=
    Nat.div_le_div_right (Nat.mul_le_mul (by omega) (by omega))
  obtain ⟨k, hk⟩ := (Nat.modEq_iff_dvd' hTle).mp hmod
  have h2i : 2 * (i * (i + 1) / 2) = i * (i + 1) :=
    Nat.mul_div_cancel' (even_iff_two_dvd.mp (Nat.even_mul_succ_self i))
  have h2j : 2 * (j * (j + 1) / 2) = j * (j + 1) :=
    Nat.mul_div_cancel' (even_iff_two_dvd.mp (Nat.even_mul_succ_self j))
  have hkey : d * (i + j + 1) + i * (i + 1) = j * (j + 1) := by
    simp only [hjdef]; ring
  have hprod : d * (i + j + 1) = 2 ^ (n + 1) * k := by
    have h3 : 2 * (2 ^ n * k) = 2 ^ (n + 1) * k := by ring
    omega
  have hdlt : d < 2 ^ n := by omega
  have h2n : 2 ^ (n + 1) = 2 ^ n + 2 ^ n := by ring
  have hsum_lt : i + j + 1 < 2 ^ (n + 1) := by omega
  have hdvd2 : 2 ^ (n + 1) ∣ d * (i + j + 1) := ⟨k, hprod⟩
  rcases Nat.even_or_odd d with hde | hdo
  · -- `d` even forces `i + j + 1` odd, so `2 ^ (n+1)` must divide `d`
    have hodd : ¬ (2 ∣ (i + j + 1)) := by
      rcases hde with ⟨m, hm⟩
      omega
    have hcop : Nat.Coprime (2 ^ (n + 1)) (i + j + 1) :=
      Nat.Coprime.pow_left _ ((Nat.Prime.coprime_iff_not_dvd Nat.prime_two).mpr hodd)
    have hdd : 2 ^ (n + 1) ∣ d :=
      hcop.dvd_of_dvd_mul_left (by rwa [Nat.mul_comm d] at hdvd2)
    have := Nat.le_of_dvd hdpos hdd
    omega
  · -- `d` odd: `2 ^ (n+1)` must divide `i + j + 1`
    have hodd : ¬ (2 ∣ d) := by
      rcases hdo with ⟨m, hm⟩
      omega
    have hcop : Nat.Coprime (2 ^ (n + 1)) d :=
      Nat.Coprime.pow_left _ ((Nat.Prime.coprime_iff_not_dvd Nat.prime_two).mpr hodd)
    have := Nat.le_of_dvd (by omega) (hcop.dvd_of_dvd_mul_left hdvd2)
    omega

/-- Distinct step counts below `2 ^ n` have distinct triangular offsets
modulo `2 ^ n`: the heart of the claim that the probe sequence visits
`capacity` distinct slots. -/
theorem tri_mod_inj {n i j : Nat} (hi : i < 2 ^ n) (hj : j < 2 ^ n)
    (hmod : i * (i + 1) / 2 ≡ j * (j + 1) / 2 [MOD 2 ^ n]) : i = j := by
  rcases le_total i j with hle | hle
  · have hji : i + (j - i) = j := by omega
    have hmod2 : i * (i + 1) / 2 ≡ (i + (j - i)) * (i + (j - i) + 1) / 2 [MOD 2 ^ n] := by
      rw [hji]; exact hmod
    have := tri_mod_inj_le (n := n) (by omega) hmod2
    omega
  · have hij : j + (i - j) = i := by omega
    have hmod2 : j * (j + 1) / 2 ≡ (j + (i - j)) * (j + (i - j) + 1) / 2 [MOD 2 ^ n] := by
      rw [hij]; exact hmod.symm
    have := tri_mod_inj_le (n := n) (by omega) hmod2
    omega

/-- Coverage: over one full round of `capacity = 2 ^ n` probes, the
triangular probe sequence starting anywhere reaches every slot. -/
theorem tri_mod_surj (n init j : Nat) (hj : j < 2 ^ n) :
    ∃ i, i < 2 ^ n ∧ (init + i * (i + 1) / 2) % 2 ^ n = j := by
  have hpos : 0 < 2 ^ n := Nat.pos_pow_of_pos n (by omega)
  let f : Fin (2 ^ n) → Fin (2 ^ n) :=
    fun i => ⟨(init + (i : Nat) * ((i : Nat) + 1) / 2) % 2 ^ n, Nat.mod_lt _ hpos⟩
  have hinj : Function.Injective f := by
    intro a b hab
    have hmod : (init + (a : Nat) * ((a : Nat) + 1) / 2) % 2 ^ n =
        (init + (b : Nat) * ((b : Nat) + 1) / 2) % 2 ^ n := congrArg Fin.val hab
    have : (a : Nat) * ((a : Nat) + 1) / 2 ≡ (b : Nat) * ((b : Nat) + 1) / 2 [MOD 2 ^ n] :=
      Nat.ModEq.add_left_cancel' init hmod
    exact Fin.ext (tri_mod_inj a.isLt b.isLt this)
  have hsurj : Function.Surjective f := Finite.injective_iff_surjective.mp hinj
  obtain ⟨i, hi⟩ := hsurj ⟨j, hj⟩
  exact ⟨i, i.isLt, congrArg Fin.val hi⟩

/-! ### Properties of the probe loop `findAux` -/

theorem findAux_lt {t : List (Option (Pair K V))} {cap : Nat} {key : K} :
    ∀ (fuel count idx : Nat), idx < cap → (findAux t cap key idx count fuel).1 < cap := by
  intro fuel
  induction fuel with
  | zero => intro count idx h; simpa [findAux] using h
  | succ f ih =>
    intro count idx h
    rw [findAux]
    cases hslot : t.getD idx none with
    | none => simpa using h
    | some p =>
      by_cases hk : p.Key = key
      · simpa [hk] using h
      · simp only [hk, if_false]
        by_cases hbreak : count + 1 ≥ cap
        · simpa [hbreak] using h
        · simp only [hbreak, if_false]
          apply ih
          have hle : (idx + (count + 1)) &&& (cap - 1) ≤ cap - 1 := Nat.and_le_right
          omega

theorem findAux_found_slot {t : List (Option (Pair K V))} {cap : Nat} {key : K} :
    ∀ {fuel count idx s : Nat}, findAux t cap key idx count fuel = (s, true) →
      ∃ p, t.getD s none = some p ∧ p.Key = key := by
  intro fuel
  induction fuel with
  | zero => intro count idx s h; simp [findAux] at h
  | succ f ih =>
    intro count idx s h
    rw [findAux] at h
    split at h
    · simp at h
    · rename_i p hslot
      split at h
      · rename_i hk
        have hs : idx = s := by simpa using congrArg Prod.fst h
        exact ⟨p, hs ▸ hslot, hk⟩
      · split at h
        · simp at h
        · exact ih h

theorem findAux_classify {t : List (Option (Pair K V))} {cap n : Nat} {key : K}
    (init : Nat) (hcap : cap = 2 ^ n) :
    ∀ (fuel count idx : Nat), count + fuel = cap →
      idx = (init + count * (count + 1) / 2) % cap →
      (∃ i, count ≤ i ∧ i < cap ∧ stops t key ((init + i * (i + 1) / 2) % cap)) →
      ((findAux t cap key idx count fuel).2 = true ∧
        ∃ p, t.getD (findAux t cap key idx count fuel).1 none = some p ∧ p.Key = key) ∨
      ((findAux t cap key idx count fuel).2 = false ∧
        t.getD (findAux t cap key idx count fuel).1 none = none) := by
  intro fuel
  induction fuel with
  | zero =>
    intro count idx hcount hidx hwit
    obtain ⟨i, hi1, hi2, -⟩ := hwit
    omega
  | succ f ih =>
    intro count idx hcount hidx hwit
    rw [findAux]
    split
    · rename_i hslot
      exact Or.inr ⟨rfl, hslot⟩
    · rename_i p hslot
      split
      · rename_i hk
        exact Or.inl ⟨rfl, p, hslot, hk⟩
      · rename_i hk
        have hnostop : ¬ stops t key ((init + count * (count + 1) / 2) % cap) := by
          rw [← hidx]
          intro hstop
          rcases hstop with hnone | ⟨q, hq, hqk⟩
          · rw [hslot] at hnone; exact Option.noConfusion hnone
          · rw [hslot] at hq
            exact hk (by injection hq with hq2; rw [← hq2] at hqk; exact hqk)
        split
        · rename_i hbreak
          exfalso
          obtain ⟨i, hi1, hi2, hstop⟩ := hwit
          have : i = count := by omega
          exact hnostop (this ▸ hstop)
        · rename_i hbreak
          apply ih
          · omega
          · have hmask : (idx + (count + 1)) &&& (cap - 1) = (idx + (count + 1)) % cap := by
              rw [hcap]; exact and_mask_eq_mod _ n
            rw [hmask, hidx, Nat.mod_add_mod]
            have : count * (count + 1) / 2 + (count + 1) = (count + 1) * (count + 2) / 2 :=
              (tri_succ count).symm
            rw [Nat.add_assoc, this]
          · obtain ⟨i, hi1, hi2, hstop⟩ := hwit
            refine ⟨i, ?_, hi2, hstop⟩
            rcases Nat.eq_or_lt_of_le hi1 with heq | hlt
            · exact absurd (heq ▸ hstop) hnostop
            · omega

theorem findAux_found_congr {t t2 : List (Option (Pair K V))} {cap : Nat} {key : K}
    (H1 : ∀ j p, t.getD j none = some p → p.Key = key →
      ∃ q, t2.getD j none = some q ∧ q.Key = key)
    (H2 : ∀ j p, t.getD j none = some p → p.Key ≠ key →
      ∃ q, t2.getD j none = some q ∧ q.Key ≠ key) :
    ∀ (fuel count idx s : Nat), findAux t cap key idx count fuel = (s, true) →
      findAux t2 cap key idx count fuel = (s, true) := by
  intro fuel
  induction fuel with
  | zero => intro count idx s h; simp [findAux] at h
  | succ f ih =>
    intro count idx s h
    rw [findAux] at h
    split at h
    · simp at h
    · rename_i p hslot
      split at h
      · rename_i hk
        obtain ⟨q, hq, hqk⟩ := H1 idx p hslot hk
        rw [findAux]
        simp only [hq]
        rw [if_pos hqk]
        exact h
      · rename_i hk
        split at h
        · simp at h
        · rename_i hbreak
          obtain ⟨q, hq, hqk⟩ := H2 idx p hslot hk
          rw [findAux]
          simp only [hq]
          rw [if_neg hqk, if_neg hbreak]
          exact ih _ _ _ h

theorem findAux_insert_self {t : List (Option (Pair K V))} {cap : Nat} {key : K} {v : V} :
    ∀ (fuel count idx e : Nat), count + fuel = cap → count < cap →
      findAux t cap key idx count fuel = (e, false) →
      t.getD e none = none → e < t.length →
      findAux (t.set e (some ⟨key, v⟩)) cap key idx count fuel = (e, true) := by
  intro fuel
  induction fuel with
  | zero => intro count idx e hcount hlt _ _ _; omega
  | succ f ih =>
    intro count idx e hcount hlt h hnone hlen
    rw [findAux] at h
    split at h
    · rename_i hslot
      have he : e = idx := by
        have := congrArg Prod.fst h
        simpa using this.symm
      subst he
      rw [findAux]
      simp [List.getD_eq_getElem?_getD, List.getElem?_set_self hlen]
    · rename_i p hslot
      split at h
      · simp at h
      · rename_i hk
        split at h
        · rename_i hbreak
          exfalso
          have he : e = idx := by
            have := congrArg Prod.fst h
            simpa using this.symm
          rw [he, hslot] at hnone
          exact Option.noConfusion hnone
        · rename_i hbreak
          have hne : e ≠ idx := by
            intro he
            rw [he, hslot] at hnone
            exact Option.noConfusion hnone
          rw [findAux, getD_set_ne _ _ _ _ hne]
          simp only [hslot]
          rw [if_neg hk, if_neg hbreak]
          exact ih _ _ _ (by omega) (by omega) h hnone hlen

/-! ### The core structural invariant -/

theorem index_lt (h : HashMap K V) (x : Nat) (hpos : 0 < h.capacity) :
    index h x < h.capacity := by
  have h1 : x &&& ((h.capacity - 1) % 2 ^ 32) ≤ (h.capacity - 1) % 2 ^ 32 :=
    Nat.and_le_right
  have h2 : (h.capacity - 1) % 2 ^ 32 ≤ h.capacity - 1 := Nat.mod_le _ _
  unfold index
  omega

theorem find_lt (hf : K → Nat) (h : HashMap K V) (key : K) (hpos : 0 < h.capacity) :
    (find hf h key).1 < h.capacity :=
  findAux_lt _ _ _ (index_lt h _ hpos)

theorem find_true_slot {hf : K → Nat} {h : HashMap K V} {key : K} {s : Nat}
    (hfind : find hf h key = (s, true)) :
    ∃ p, h.table.getD s none = some p ∧ p.Key = key :=
  findAux_found_slot hfind

/-- Classification of `find` on a table satisfying the invariant: a
successful search ends on a slot holding the key, an unsuccessful one on
an empty slot (the under-50% load guarantees an empty slot exists and
the triangular probe sequence reaches it within `capacity` steps). -/
theorem find_cases (hf : K → Nat) (h : HashMap K V) (key : K) (hc : InvCore h) :
    ((find hf h key).2 = true ∧
      ∃ p, h.table.getD (find hf h key).1 none = some p ∧ p.Key = key) ∨
    ((find hf h key).2 = false ∧ h.table.getD (find hf h key).1 none = none) := by
  obtain ⟨n, hn⟩ := hc.pow
  have hpos : 0 < h.capacity := by have := hc.cap8; omega
  have hinit : index h (hf key % 2 ^ 32) < h.capacity := index_lt h _ hpos
  have hocc : occCount h.table < h.capacity := by
    have := hc.sz
    have := hc.load
    omega
  obtain ⟨j, hjlt, hjnone⟩ := exists_empty_slot h.table (by rw [hc.len]; exact hocc)
  have hjcap : j < 2 ^ n := by rw [← hn, ← hc.len]; exact hjlt
  obtain ⟨i, hilt, hipos⟩ := tri_mod_surj n (index h (hf key % 2 ^ 32)) j hjcap
  have hwit : ∃ i, 0 ≤ i ∧ i < h.capacity ∧
      stops h.table key ((index h (hf key % 2 ^ 32) + i * (i + 1) / 2) % h.capacity) := by
    refine ⟨i, Nat.zero_le _, by omega, ?_⟩
    rw [hn, hipos]
    exact Or.inl hjnone
  have hidx0 : index h (hf key % 2 ^ 32) =
      (index h (hf key % 2 ^ 32) + 0 * (0 + 1) / 2) % h.capacity := by
    simp only [Nat.zero_mul, Nat.zero_div, Nat.add_zero]
    exact (Nat.mod_eq_of_lt hinit).symm
  exact findAux_classify (index h (hf key % 2 ^ 32)) hn h.capacity 0 _
    (by omega) hidx0 hwit

theorem invCore_mkTable {cap n : Nat} (h8 : 8 ≤ cap) (hp : cap = 2 ^ n) :
    InvCore (mkTable cap : HashMap K V) where
  len := by simp [mkTable]
  pow := ⟨n, hp⟩
  cap8 := h8
  sz := by simp [mkTable, occCount_replicate]
  load := by simp only [mkTable]; omega

theorem invCore_new : InvCore (New : HashMap K V) :=
  invCore_mkTable (by decide) (by decide : initialCapacity = 2 ^ 3)

/-! Branch equations for the operations. -/

theorem setBody_found_eq {hf : K → Nat} {h : HashMap K V} {key : K} {value : V}
    {s : Nat} {p : Pair K V}
    (hfind : find hf h key = (s, true)) (hp : h.table.getD s none = some p) :
    setBody hf h key value =
      { h with table := h.table.set s (some ⟨p.Key, value⟩) } := by
  simp [setBody, hfind, ← List.getD_eq_getElem?_getD, hp]

theorem setBody_notfound_eq {hf : K → Nat} {h : HashMap K V} {key : K} {value : V}
    {s : Nat} (hfind : find hf h key = (s, false)) :
    setBody hf h key value =
      { h with table := h.table.set s (some ⟨key, value⟩), size := h.size + 1 } := by
  simp [setBody, hfind]

theorem Delete_found_eq {hf : K → Nat} {h : HashMap K V} {k : K} {s : Nat}
    (hfind : find hf h k = (s, true)) :
    Delete hf h k = ({ h with table := h.table.set s none, size := h.size - 1 }, true) := by
  simp [Delete, hfind]

theorem Delete_notfound_eq {hf : K → Nat} {h : HashMap K V} {k : K} {s : Nat}
    (hfind : find hf h k = (s, false)) : Delete hf h k = (h, false) := by
  simp [Delete, hfind]

theorem Get_found_eq {hf : K → Nat} {h : HashMap K V} {key : K} {s : Nat} {p : Pair K V}
    (hfind : find hf h key = (s, true)) (hp : h.table.getD s none = some p) :
    Get hf h key = (some p.Value, true) := by
  simp [Get, hfind, ← List.getD_eq_getElem?_getD, hp]

theorem Get_notfound_eq {hf : K → Nat} {h : HashMap K V} {key : K} {s : Nat}
    (hfind : find hf h key = (s, false)) : Get hf h key = (none, false) := by
  simp [Get, hfind]

/-- Behaviour of the rehash-free insertion step on an invariant-satisfying
table whose load allows one more entry. -/
theorem setBody_props (hf : K → Nat) (h : HashMap K V) (key : K) (value : V)
    (hc : InvCore h) (hload : (h.size + 1) * 2 < h.capacity) :
    InvCore (setBody hf h key value) ∧
    (setBody hf h key value).capacity = h.capacity ∧
    (setBody hf h key value).size ≤ h.size + 1 := by
  have hpos : 0 < h.capacity := by have := hc.cap8; omega
  rcases hfind : find hf h key with ⟨s, b⟩
  cases b with
  | true =>
    obtain ⟨p, hp, hpk⟩ := find_true_slot hfind
    rw [setBody_found_eq hfind hp]
    refine ⟨⟨?_, hc.pow, hc.cap8, ?_, hc.load⟩, rfl, by dsimp only; omega⟩
    · simp [hc.len]
    · simpa [occCount_set_some_of_some h.table s _ p hp] using hc.sz
  | false =>
    have hempty : h.table.getD s none = none := by
      rcases find_cases hf h key hc with ⟨htrue, -⟩ | ⟨-, hnone⟩
      · rw [hfind] at htrue; simp at htrue
      · rw [hfind] at hnone; exact hnone
    have hslt : s < h.table.length := by
      rw [hc.len]
      have := find_lt hf h key hpos
      rw [hfind] at this
      exact this
    rw [setBody_notfound_eq hfind]
    refine ⟨⟨?_, hc.pow, hc.cap8, ?_, ?_⟩, rfl, by dsimp only; omega⟩
    · simp [hc.len]
    · dsimp only
      rw [occCount_set_some_of_none h.table s _ hempty hslt, ← hc.sz]
    · dsimp only
      omega

/-- Re-inserting a list of optional pairs (the old table) through the
load-checked `SetF` never triggers a nested rehash and keeps the
invariant, as long as the target capacity has enough slack. -/
theorem reinsert_core (hf : K → Nat) (C S fuel : Nat) (hSC : (S + 1) * 2 < C) :
    ∀ (l : List (Option (Pair K V))) (acc : HashMap K V),
      InvCore acc → acc.capacity = C → acc.size + occCount l ≤ S →
      InvCore (l.foldl (fun acc o =>
        match o with
        | none => acc
        | some p => SetF (fuel + 1) hf acc p.Key p.Value) acc) ∧
      (l.foldl (fun acc o =>
        match o with
        | none => acc
        | some p => SetF (fuel + 1) hf acc p.Key p.Value) acc).capacity = C ∧
      (l.foldl (fun acc o =>
        match o with
        | none => acc
        | some p => SetF (fuel + 1) hf acc p.Key p.Value) acc).size ≤ acc.size + occCount l := by
  intro l
  induction l with
  | nil => intro acc hca hcc hsz; simpa [occCount] using ⟨hca, hcc⟩
  | cons o l ih =>
    intro acc hca hcc hsz
    cases o with
    | none =>
      have hocc : occCount (none :: l) = occCount l := by
        simp [occCount, List.filterMap_cons]
      rw [List.foldl_cons]
      have := ih acc hca hcc (by omega)
      simpa [hocc] using this
    | some p =>
      have hocc : occCount (some p :: l) = occCount l + 1 := by
        simp [occCount, List.filterMap_cons]
      rw [hocc] at hsz
      have hsize_lt : (acc.size + 1) * 2 < C := by omega
      have hcond : ¬ ((acc.size + 1) * maximumLoad ≥ acc.capacity) := by
        rw [hcc]
        simp only [maximumLoad]
        omega
      have hstep : SetF (fuel + 1) hf acc p.Key p.Value = setBody hf acc p.Key p.Value := by
        rw [SetF_succ, if_neg hcond]
      obtain ⟨hinv2, hcap2, hsz2⟩ :=
        setBody_props hf acc p.Key p.Value hca (by rw [hcc]; exact hsize_lt)
      simp only [List.foldl_cons]
      rw [hstep]
      obtain ⟨ha, hb, hd⟩ := ih (setBody hf acc p.Key p.Value) hinv2
        (by rw [hcap2, hcc]) (by omega)
      refine ⟨ha, hb, ?_⟩
      rw [hocc]
      omega

theorem rehash_props (hf : K → Nat) (h : HashMap K V) (fuel : Nat) (hc : InvCore h) :
    InvCore (rehash (fuel + 1) hf h) ∧
    (rehash (fuel + 1) hf h).capacity = h.capacity * 2 ∧
    (rehash (fuel + 1) hf h).size ≤ h.size := by
  obtain ⟨n, hn⟩ := hc.pow
  have hSC : (h.size + 1) * 2 < h.capacity * 2 := by
    have := hc.load
    have := hc.cap8
    omega
  have hmk : InvCore (mkTable (h.capacity * 2) : HashMap K V) :=
    invCore_mkTable (n := n + 1) (by have := hc.cap8; omega) (by rw [hn, Nat.pow_succ])
  obtain ⟨ha, hb, hd⟩ := reinsert_core hf (h.capacity * 2) h.size fuel hSC h.table
    (mkTable (h.capacity * 2)) hmk (by simp [mkTable])
    (by simp only [mkTable]; rw [← hc.sz]; omega)
  refine ⟨ha, hb, ?_⟩
  simp only [mkTable] at hd
  rw [← hc.sz] at hd
  simpa using hd

theorem invCore_Set (hf : K → Nat) (h : HashMap K V) (k : K) (v : V)
    (hc : InvCore h) : InvCore (Set hf h k v) := by
  unfold Set
  rw [show (3 : Nat) = 2 + 1 from rfl, SetF_succ]
  by_cases hcond : (h.size + 1) * maximumLoad ≥ h.capacity
  · rw [if_pos hcond]
    obtain ⟨hinv2, hcap2, hsz2⟩ := rehash_props hf h 1 hc
    exact (setBody_props hf _ k v hinv2 (by
      rw [hcap2]
      have := hc.load
      have := hc.cap8
      omega)).1
  · rw [if_neg hcond]
    exact (setBody_props hf h k v hc (by simp only [maximumLoad] at hcond; omega)).1

theorem invCore_Delete (hf : K → Nat) (h : HashMap K V) (k : K)
    (hc : InvCore h) : InvCore (Delete hf h k).1 := by
  rcases hfind : find hf h k with ⟨s, b⟩
  cases b with
  | false => rw [Delete_notfound_eq hfind]; exact hc
  | true =>
    obtain ⟨p, hp, -⟩ := find_true_slot hfind
    have hocc : occCount (h.table.set s none) + 1 = occCount h.table :=
      occCount_set_none_of_some h.table s p hp
    rw [Delete_found_eq hfind]
    refine ⟨by simp [hc.len], hc.pow, hc.cap8, ?_, ?_⟩
    · dsimp only
      have := hc.sz
      omega
    · dsimp only
      have := hc.load
      omega

theorem invCore_Clear (h : HashMap K V) : InvCore (Clear h) := invCore_new

theorem reachable_invCore {hf : K → Nat} {h : HashMap K V}
    (hr : Reachable hf h) : InvCore h := by
  induction hr with
  | new => exact invCore_new
  | set h k v _ ih => exact invCore_Set hf h k v ih
  | del h k _ ih => exact invCore_Delete hf h k ih
  | clear h _ => exact invCore_Clear h

/-! ### Bindings and the delete-free invariant -/

theorem key_mem_of_slot {t : List (Option (Pair K V))} {s : Nat} {p : Pair K V}
    (hp : t.getD s none = some p) : p.Key ∈ keysList t :=
  List.mem_map_of_mem Pair.Key (getD_some_mem hp)

theorem find_set_table (hf : K → Nat) (h : HashMap K V) (t2 : List (Option (Pair K V)))
    (key : K) :
    find hf { h with table := t2 } key =
      findAux t2 h.capacity key (index h (hf key % 2 ^ 32)) 0 h.capacity := rfl

theorem found_mem {hf : K → Nat} {h : HashMap K V} {k : K} {s : Nat}
    (hfind : find hf h k = (s, true)) : k ∈ keysList h.table := by
  obtain ⟨p, hp, hpk⟩ := find_true_slot hfind
  exact hpk ▸ key_mem_of_slot hp

theorem notfound_of_not_mem (hf : K → Nat) {h : HashMap K V} {k : K}
    (hmem : k ∉ keysList h.table) : (find hf h k).2 = false := by
  rcases hfind : find hf h k with ⟨s, b⟩
  cases b with
  | false => rfl
  | true => exact absurd (found_mem hfind) hmem

/-- A binding `Get k = (v, true)` gives a slot holding exactly `⟨k, v⟩`. -/
theorem binding_slot {hf : K → Nat} {h : HashMap K V} {k : K} {v : V}
    (hbind : Get hf h k = (some v, true)) :
    ∃ s, find hf h k = (s, true) ∧ h.table.getD s none = some ⟨k, v⟩ := by
  rcases hfind : find hf h k with ⟨s, b⟩
  cases b with
  | false => rw [Get_notfound_eq hfind] at hbind; simp at hbind
  | true =>
    obtain ⟨p, hp, hpk⟩ := find_true_slot hfind
    rw [Get_found_eq hfind hp] at hbind
    have hv : p.Value = v := by simpa using hbind
    refine ⟨s, rfl, ?_⟩
    rw [hp]
    cases p
    simp_all

/-- An update or a fresh insertion of a different key preserves an
existing binding (no deletion involved). -/
theorem setBody_pres_binding (hf : K → Nat) (h : HashMap K V) (k2 : K) (v2 : V)
    {k : K} {v : V} (hc : InvCore h) (hne : k ≠ k2)
    (hbind : Get hf h k = (some v, true)) :
    Get hf (setBody hf h k2 v2) k = (some v, true) := by
  have hpos : 0 < h.capacity := by have := hc.cap8; omega
  obtain ⟨s, hfindk, hslotk⟩ := binding_slot hbind
  rcases hfind2 : find hf h k2 with ⟨s2, b2⟩
  cases b2 with
  | true =>
    obtain ⟨q, hq, hqk⟩ := find_true_slot hfind2
    have hs2len : s2 < h.table.length := getD_some_lt hq
    have hss : s ≠ s2 := by
      intro he
      rw [he, hq] at hslotk
      injection hslotk with hpq
      have hk2 : k = k2 := by rw [hpq] at hqk; simpa using hqk
      exact hne hk2
    rw [setBody_found_eq hfind2 hq]
    have hfind3 : find hf { h with table := h.table.set s2 (some ⟨q.Key, v2⟩) } k =
        (s, true) := by
      rw [find_set_table]
      refine findAux_found_congr ?_ ?_ h.capacity 0 _ s hfindk
      · intro j r hr hrk
        have hj : j ≠ s2 := by
          intro he
          rw [he, hq] at hr
          injection hr with hrq
          rw [hrq] at hqk
          rw [hrk] at hqk
          exact hne hqk
        exact ⟨r, by rw [getD_set_ne _ _ _ _ (fun he => hj he.symm)]; exact hr, hrk⟩
      · intro j r hr hrk
        by_cases hj : j = s2
        · subst hj
          refine ⟨⟨q.Key, v2⟩, by rw [getD_set_self _ _ _ hs2len], ?_⟩
          simp only
          rw [hqk]
          exact fun he => hne he.symm
        · exact ⟨r, by rw [getD_set_ne _ _ _ _ (fun he => hj he.symm)]; exact hr, hrk⟩
    have hslot3 : (h.table.set s2 (some ⟨q.Key, v2⟩)).getD s none = some ⟨k, v⟩ := by
      rw [getD_set_ne _ _ _ _ (fun he => hss he.symm)]
      exact hslotk
    rw [Get_found_eq hfind3 hslot3]
  | false =>
    have hempty : h.table.getD s2 none = none := by
      rcases find_cases hf h k2 hc with ⟨htrue, -⟩ | ⟨-, hnone⟩
      · rw [hfind2] at htrue; simp at htrue
      · rw [hfind2] at hnone; exact hnone
    have hs2len : s2 < h.table.length := by
      rw [hc.len]
      have := find_lt hf h k2 hpos
      rw [hfind2] at this
      exact this
    have hss : s ≠ s2 := by
      intro he
      rw [he, hempty] at hslotk
      exact Option.noConfusion hslotk
    rw [setBody_notfound_eq hfind2]
    have hfind3 : find hf
        { h with table := h.table.set s2 (some ⟨k2, v2⟩), size := h.size + 1 } k =
        (s, true) := by
      show findAux _ h.capacity k (index h (hf k % 2 ^ 32)) 0 h.capacity = (s, true)
      refine findAux_found_congr ?_ ?_ h.capacity 0 _ s hfindk
      · intro j r hr hrk
        have hj : j ≠ s2 := by
          intro he
          rw [he, hempty] at hr
          exact Option.noConfusion hr
        exact ⟨r, by rw [getD_set_ne _ _ _ _ (fun he => hj he.symm)]; exact hr, hrk⟩
      · intro j r hr hrk
        by_cases hj : j = s2
        · subst hj
          rw [hempty] at hr
          exact Option.noConfusion hr
        · exact ⟨r, by rw [getD_set_ne _ _ _ _ (fun he => hj he.symm)]; exact hr, hrk⟩
    have hslot3 : (h.table.set s2 (some ⟨k2, v2⟩)).getD s none = some ⟨k, v⟩ := by
      rw [getD_set_ne _ _ _ _ (fun he => hss he.symm)]
      exact hslotk
    rcases hfind4 : find hf
        { h with table := h.table.set s2 (some ⟨k2, v2⟩), size := h.size + 1 } k
      with ⟨s4, b4⟩
    have : (s4, b4) = (s, true) := by rw [← hfind4, hfind3]
    injection this with h4a h4b
    subst h4a
    subst h4b
    rw [Get_found_eq hfind4 hslot3]

/-- After `setBody k v` the table binds `k` to `v`. -/
theorem setBody_creates_binding (hf : K → Nat) (h : HashMap K V) (k : K) (v : V)
    (hc : InvCore h) : Get hf (setBody hf h k v) k = (some v, true) := by
  have hpos : 0 < h.capacity := by have := hc.cap8; omega
  rcases hfind : find hf h k with ⟨s, b⟩
  cases b with
  | true =>
    obtain ⟨p, hp, hpk⟩ := find_true_slot hfind
    have hslen : s < h.table.length := getD_some_lt hp
    rw [setBody_found_eq hfind hp]
    have hfind3 : find hf { h with table := h.table.set s (some ⟨p.Key, v⟩) } k =
        (s, true) := by
      rw [find_set_table]
      refine findAux_found_congr ?_ ?_ h.capacity 0 _ s hfind
      · intro j r hr hrk
        by_cases hj : j = s
        · subst hj
          exact ⟨⟨p.Key, v⟩, by rw [getD_set_self _ _ _ hslen], hpk⟩
        · exact ⟨r, by rw [getD_set_ne _ _ _ _ (fun he => hj he.symm)]; exact hr, hrk⟩
      · intro j r hr hrk
        by_cases hj : j = s
        · subst hj
          rw [hp] at hr
          injection hr with hrp
          rw [hrp] at hpk
          exact absurd hpk hrk
        · exact ⟨r, by rw [getD_set_ne _ _ _ _ (fun he => hj he.symm)]; exact hr, hrk⟩
    have hslot3 : (h.table.set s (some ⟨p.Key, v⟩)).getD s none = some ⟨p.Key, v⟩ :=
      getD_set_self _ _ _ hslen
    rw [Get_found_eq hfind3 hslot3]
  | false =>
    have hempty : h.table.getD s none = none := by
      rcases find_cases hf h k hc with ⟨htrue, -⟩ | ⟨-, hnone⟩
      · rw [hfind] at htrue; simp at htrue
      · rw [hfind] at hnone; exact hnone
    have hslen : s < h.table.length := by
      rw [hc.len]
      have := find_lt hf h k hpos
      rw [hfind] at this
      exact this
    rw [setBody_notfound_eq hfind]
    have hfind3 : find hf
        { h with table := h.table.set s (some ⟨k, v⟩), size := h.size + 1 } k =
        (s, true) := by
      show findAux _ h.capacity k (index h (hf k % 2 ^ 32)) 0 h.capacity = (s, true)
      refine findAux_insert_self h.capacity 0 _ s (by omega) (by omega) hfind hempty hslen
    have hslot3 : (h.table.set s (some ⟨k, v⟩)).getD s none = some ⟨k, v⟩ :=
      getD_set_self _ _ _ hslen
    rw [Get_found_eq hfind3 hslot3]

theorem setBody_found_keys {hf : K → Nat} {h : HashMap K V} {k2 : K} {v2 : V}
    {s2 : Nat} {q : Pair K V}
    (hfind : find hf h k2 = (s2, true)) (hq : h.table.getD s2 none = some q) :
    keysList (setBody hf h k2 v2).table = keysList h.table := by
  rw [setBody_found_eq hfind hq]
  exact keysList_set_some_of_some h.table s2 ⟨q.Key, v2⟩ q hq rfl

theorem setBody_notfound_keys {hf : K → Nat} {h : HashMap K V} {k2 : K} (v2 : V)
    {s2 : Nat} (hc : InvCore h) (hfind : find hf h k2 = (s2, false)) :
    (keysList (setBody hf h k2 v2).table).Perm (k2 :: keysList h.table) := by
  have hpos : 0 < h.capacity := by have := hc.cap8; omega
  have hempty : h.table.getD s2 none = none := by
    rcases find_cases hf h k2 hc with ⟨htrue, -⟩ | ⟨-, hnone⟩
    · rw [hfind] at htrue; simp at htrue
    · rw [hfind] at hnone; exact hnone
  have hs2len : s2 < h.table.length := by
    rw [hc.len]
    have := find_lt hf h k2 hpos
    rw [hfind] at this
    exact this
  rw [setBody_notfound_eq hfind]
  exact keysList_set_none_insert h.table s2 ⟨k2, v2⟩ hempty hs2len

theorem setBody_findable (hf : K → Nat) (h : HashMap K V) (k2 : K) (v2 : V)
    (hc : InvCore h) (hfa : Findable hf h) :
    Findable hf (setBody hf h k2 v2) := by
  intro k hmem
  have hpos : 0 < h.capacity := by have := hc.cap8; omega
  rcases hfind2 : find hf h k2 with ⟨s2, b2⟩
  cases b2 with
  | true =>
    obtain ⟨q, hq, hqk⟩ := find_true_slot hfind2
    have hs2len : s2 < h.table.length := getD_some_lt hq
    rw [setBody_found_keys hfind2 hq] at hmem
    have hold := hfa k hmem
    rcases hfindk : find hf h k with ⟨s, b⟩
    rw [hfindk] at hold
    simp at hold
    subst hold
    have hfind3 : find hf { h with table := h.table.set s2 (some ⟨q.Key, v2⟩) } k =
        (s, true) := by
      rw [find_set_table]
      refine findAux_found_congr ?_ ?_ h.capacity 0 _ s hfindk
      · intro j r hr hrk
        by_cases hj : j = s2
        · subst hj
          rw [hq] at hr
          injection hr with hrq
          refine ⟨⟨q.Key, v2⟩, by rw [getD_set_self _ _ _ hs2len], ?_⟩
          rw [← hrq] at hrk
          exact hrk
        · exact ⟨r, by rw [getD_set_ne _ _ _ _ (fun he => hj he.symm)]; exact hr, hrk⟩
      · intro j r hr hrk
        by_cases hj : j = s2
        · subst hj
          rw [hq] at hr
          injection hr with hrq
          refine ⟨⟨q.Key, v2⟩, by rw [getD_set_self _ _ _ hs2len], ?_⟩
          rw [← hrq] at hrk
          exact hrk
        · exact ⟨r, by rw [getD_set_ne _ _ _ _ (fun he => hj he.symm)]; exact hr, hrk⟩
    rw [setBody_found_eq hfind2 hq, hfind3]
  | false =>
    have hempty : h.table.getD s2 none = none := by
      rcases find_cases hf h k2 hc with ⟨htrue, -⟩ | ⟨-, hnone⟩
      · rw [hfind2] at htrue; simp at htrue
      · rw [hfind2] at hnone; exact hnone
    have hs2len : s2 < h.table.length := by
      rw [hc.len]
      have := find_lt hf h k2 hpos
      rw [hfind2] at this
      exact this
    have hperm := setBody_notfound_keys v2 hc hfind2
    rw [hperm.mem_iff] at hmem
    rcases List.mem_cons.mp hmem with hk2 | hmemold
    · subst hk2
      have hfind3 : find hf
          { h with table := h.table.set s2 (some ⟨k, v2⟩), size := h.size + 1 } k =
          (s2, true) := by
        show findAux _ h.capacity k (index h (hf k % 2 ^ 32)) 0 h.capacity = (s2, true)
        exact findAux_insert_self h.capacity 0 _ s2 (by omega) (by omega) hfind2 hempty
          hs2len
      rw [setBody_notfound_eq hfind2, hfind3]
    · have hold := hfa k hmemold
      rcases hfindk : find hf h k with ⟨s, b⟩
      rw [hfindk] at hold
      simp at hold
      subst hold
      have hfind3 : find hf
          { h with table := h.table.set s2 (some ⟨k2, v2⟩), size := h.size + 1 } k =
          (s, true) := by
        show findAux _ h.capacity k (index h (hf k % 2 ^ 32)) 0 h.capacity = (s, true)
        refine findAux_found_congr ?_ ?_ h.capacity 0 _ s hfindk
        · intro j r hr hrk
          have hj : j ≠ s2 := by
            intro he
            rw [he, hempty] at hr
            exact Option.noConfusion hr
          exact ⟨r, by rw [getD_set_ne _ _ _ _ (fun he => hj he.symm)]; exact hr, hrk⟩
        · intro j r hr hrk
          have hj : j ≠ s2 := by
            intro he
            rw [he, hempty] at hr
            exact Option.noConfusion hr
          exact ⟨r, by rw [getD_set_ne _ _ _ _ (fun he => hj he.symm)]; exact hr, hrk⟩
      rw [setBody_notfound_eq hfind2, hfind3]

theorem setBody_invND (hf : K → Nat) (h : HashMap K V) (k2 : K) (v2 : V)
    (hnd : InvND hf h) (hload : (h.size + 1) * 2 < h.capacity) :
    InvND hf (setBody hf h k2 v2) := by
  obtain ⟨hc, hnodup, hfa⟩ := hnd
  refine ⟨(setBody_props hf h k2 v2 hc hload).1, ?_, setBody_findable hf h k2 v2 hc hfa⟩
  rcases hfind2 : find hf h k2 with ⟨s2, b2⟩
  cases b2 with
  | true =>
    obtain ⟨q, hq, -⟩ := find_true_slot hfind2
    rw [setBody_found_keys hfind2 hq]
    exact hnodup
  | false =>
    have hnotmem : k2 ∉ keysList h.table := by
      intro hmem
      have := hfa k2 hmem
      rw [hfind2] at this
      simp at this
    exact (setBody_notfound_keys v2 hc hfind2).symm.nodup (hnodup.cons hnotmem)

/-- Re-inserting pairs with pairwise-fresh keys into a half-empty table
preserves the delete-free invariant, all existing bindings, and creates a
binding for every re-inserted pair.  This is the heart of the proof that
a rehash loses no binding. -/
theorem reinsert_nd (hf : K → Nat) (C S fuel : Nat) (hSC : (S + 1) * 2 < C) :
    ∀ (l : List (Option (Pair K V))) (acc : HashMap K V),
      InvND hf acc → acc.capacity = C → acc.size + occCount l ≤ S →
      (keysList acc.table ++ keysList l).Nodup →
      InvND hf (l.foldl (fun acc o =>
        match o with
        | none => acc
        | some p => SetF (fuel + 1) hf acc p.Key p.Value) acc) ∧
      (l.foldl (fun acc o =>
        match o with
        | none => acc
        | some p => SetF (fuel + 1) hf acc p.Key p.Value) acc).capacity = C ∧
      (l.foldl (fun acc o =>
        match o with
        | none => acc
        | some p => SetF (fuel + 1) hf acc p.Key p.Value) acc).size ≤
          acc.size + occCount l ∧
      (∀ k v, Get hf acc k = (some v, true) →
        Get hf (l.foldl (fun acc o =>
          match o with
          | none => acc
          | some p => SetF (fuel + 1) hf acc p.Key p.Value) acc) k = (some v, true)) ∧
      (∀ p ∈ l.filterMap id,
        Get hf (l.foldl (fun acc o =>
          match o with
          | none => acc
          | some p => SetF (fuel + 1) hf acc p.Key p.Value) acc) p.Key =
          (some p.Value, true)) := by
  intro l
  induction l with
  | nil =>
    intro acc hnd hcc hsz hkeys
    refine ⟨hnd, hcc, by simp [occCount], fun k v hb => hb, ?_⟩
    intro p hp
    simp at hp
  | cons o l ih =>
    intro acc hnd hcc hsz hkeys
    cases o with
    | none =>
      have hocc : occCount (none :: l) = occCount l := by
        simp [occCount, List.filterMap_cons]
      have hkeys2 : keysList (none :: l) = keysList l := by
        simp [keysList, List.filterMap_cons]
      rw [hkeys2] at hkeys
      rw [hocc] at hsz
      obtain ⟨ha, hb, hd, he, hg⟩ := ih acc hnd hcc hsz hkeys
      refine ⟨ha, hb, by rw [hocc]; simpa using hd, he, ?_⟩
      intro p hp
      exact hg p hp
    | some p =>
      have hocc : occCount (some p :: l) = occCount l + 1 := by
        simp [occCount, List.filterMap_cons]
      have hkeys2 : keysList (some p :: l) = p.Key :: keysList l := by
        simp [keysList, List.filterMap_cons]
      rw [hkeys2] at hkeys
      rw [hocc] at hsz
      obtain ⟨hc, hnodup, hfa⟩ := hnd
      -- the load check inside `SetF` does not fire
      have hsize_lt : (acc.size + 1) * 2 < C := by omega
      have hcond : ¬ ((acc.size + 1) * maximumLoad ≥ acc.capacity) := by
        rw [hcc]
        simp only [maximumLoad]
        omega
      have hstep : SetF (fuel + 1) hf acc p.Key p.Value = setBody hf acc p.Key p.Value := by
        rw [SetF_succ, if_neg hcond]
      -- `p.Key` is fresh for `acc`
      have hfresh : p.Key ∉ keysList acc.table := by
        intro hmem
        have hmem2 : p.Key ∈ keysList acc.table ++ p.Key :: keysList l := by
          exact List.mem_append_left _ hmem
        have := List.disjoint_of_nodup_append hkeys
        exact this hmem (by simp)
      have hload2 : (acc.size + 1) * 2 < acc.capacity := by rw [hcc]; exact hsize_lt
      have hacc2nd : InvND hf (setBody hf acc p.Key p.Value) :=
        setBody_invND hf acc p.Key p.Value ⟨hc, hnodup, hfa⟩ hload2
      obtain ⟨-, hcap2, hsz2⟩ := setBody_props hf acc p.Key p.Value hc hload2
      -- keys of the new accumulator
      rcases hfindp : find hf acc p.Key with ⟨sp, bp⟩
      cases bp with
      | true => exact absurd (found_mem hfindp) hfresh
      | false =>
      have hperm : (keysList (setBody hf acc p.Key p.Value).table).Perm
          (p.Key :: keysList acc.table) :=
        setBody_notfound_keys p.Value hc hfindp
      have hkeys3 : (keysList (setBody hf acc p.Key p.Value).table ++ keysList l).Nodup := by
        have h1 : (p.Key :: (keysList acc.table ++ keysList l)).Nodup := by
          exact (@List.perm_middle K p.Key (keysList acc.table) (keysList l)).nodup hkeys
        have h2 : ((p.Key :: keysList acc.table) ++ keysList l).Nodup := h1
        exact (List.Perm.append_right (keysList l) hperm.symm).nodup h2
      have hbindp : Get hf (setBody hf acc p.Key p.Value) p.Key = (some p.Value, true) :=
        setBody_creates_binding hf acc p.Key p.Value hc
      obtain ⟨ha, hb, hd, he, hg⟩ := ih (setBody hf acc p.Key p.Value) hacc2nd
        (by rw [hcap2, hcc]) (by omega) hkeys3
      simp only [List.foldl_cons]
      rw [hstep]
      refine ⟨ha, hb, ?_, ?_, ?_⟩
      · rw [hocc]; omega
      · intro k v hbind
        have hkmem : k ∈ keysList acc.table := by
          obtain ⟨s, hfindk, hslotk⟩ := binding_slot hbind
          exact found_mem hfindk
        have hkne : k ≠ p.Key := by
          intro heq
          rw [heq] at hkmem
          exact hfresh hkmem
        exact he k v (setBody_pres_binding hf acc p.Key p.Value hc hkne hbind)
      · intro q hq
        have hq2 : q ∈ p :: l.filterMap id := hq
        rcases List.mem_cons.mp hq2 with hq | hq
        · subst hq
          exact he q.Key q.Value hbindp
        · exact hg q hq

/-- A rehash preserves the delete-free invariant and every binding. -/
theorem rehash_nd (hf : K → Nat) (h : HashMap K V) (fuel : Nat) (hnd : InvND hf h) :
    InvND hf (rehash (fuel + 1) hf h) ∧
    (rehash (fuel + 1) hf h).capacity = h.capacity * 2 ∧
    (rehash (fuel + 1) hf h).size ≤ h.size ∧
    (∀ k v, Get hf h k = (some v, true) →
      Get hf (rehash (fuel + 1) hf h) k = (some v, true)) := by
  obtain ⟨hc, hnodup, hfa⟩ := hnd
  obtain ⟨n, hn⟩ := hc.pow
  have hSC : (h.size + 1) * 2 < h.capacity * 2 := by
    have := hc.load
    have := hc.cap8
    omega
  have hmk : InvCore (mkTable (h.capacity * 2) : HashMap K V) :=
    invCore_mkTable (n := n + 1) (by have := hc.cap8; omega) (by rw [hn, Nat.pow_succ])
  have hmknd : InvND hf (mkTable (h.capacity * 2) : HashMap K V) := by
    refine ⟨hmk, ?_, ?_⟩
    · simp [mkTable, keysList_replicate]
    · intro k hmem
      rw [show (mkTable (h.capacity * 2) : HashMap K V).table =
        List.replicate (h.capacity * 2) none from rfl, keysList_replicate] at hmem
      simp at hmem
  obtain ⟨ha, hb, hd, he, hg⟩ := reinsert_nd hf (h.capacity * 2) h.size fuel hSC h.table
    (mkTable (h.capacity * 2)) hmknd (by simp [mkTable])
    (by simp only [mkTable]; rw [← hc.sz]; omega)
    (by
      rw [show (mkTable (h.capacity * 2) : HashMap K V).table =
        List.replicate (h.capacity * 2) none from rfl, keysList_replicate]
      simpa using hnodup)
  refine ⟨ha, hb, ?_, ?_⟩
  · simp only [mkTable] at hd
    rw [← hc.sz] at hd
    simpa using hd
  · intro k v hbind
    obtain ⟨s, hfindk, hslotk⟩ := binding_slot hbind
    have hp : (⟨k, v⟩ : Pair K V) ∈ h.table.filterMap id := getD_some_mem hslotk
    exact hg ⟨k, v⟩ hp

/-- `Set` on a delete-free table: the invariant is preserved, existing
bindings of other keys survive (through a possible rehash), and the new
binding is created. -/
theorem Set_invND_binding (hf : K → Nat) (h : HashMap K V) (k2 : K) (v2 : V)
    (hnd : InvND hf h) :
    InvND hf (Set hf h k2 v2) ∧
    (∀ k v, k ≠ k2 → Get hf h k = (some v, true) →
      Get hf (Set hf h k2 v2) k = (some v, true)) ∧
    Get hf (Set hf h k2 v2) k2 = (some v2, true) := by
  obtain ⟨hc, hnodup, hfa⟩ := hnd
  unfold Set
  rw [show (3 : Nat) = 2 + 1 from rfl, SetF_succ]
  by_cases hcond : (h.size + 1) * maximumLoad ≥ h.capacity
  · rw [if_pos hcond]
    have hrnd := rehash_nd hf h 1 ⟨hc, hnodup, hfa⟩
    rw [show (1 + 1 : Nat) = 2 from rfl] at hrnd
    obtain ⟨hand, hcap2, hsz2, hbinds⟩ := hrnd
    have hload2 : ((rehash 2 hf h).size + 1) * 2 < (rehash 2 hf h).capacity := by
      rw [hcap2]
      have := hc.load
      have := hc.cap8
      omega
    refine ⟨setBody_invND hf _ k2 v2 hand hload2, ?_, ?_⟩
    · intro k v hkne hbind
      exact setBody_pres_binding hf _ k2 v2 hand.1 hkne (hbinds k v hbind)
    · exact setBody_creates_binding hf _ k2 v2 hand.1
  · rw [if_neg hcond]
    have hload2 : (h.size + 1) * 2 < h.capacity := by
      simp only [maximumLoad] at hcond
      omega
    refine ⟨setBody_invND hf h k2 v2 ⟨hc, hnodup, hfa⟩ hload2, ?_, ?_⟩
    · intro k v hkne hbind
      exact setBody_pres_binding hf h k2 v2 hc hkne hbind
    · exact setBody_creates_binding hf h k2 v2 hc

theorem invND_new (hf : K → Nat) : InvND hf (New : HashMap K V) := by
  refine ⟨invCore_new, ?_, ?_⟩
  · simp [New, mkTable, keysList_replicate]
  · intro k hmem
    rw [show (New : HashMap K V).table = List.replicate initialCapacity none from rfl,
      keysList_replicate] at hmem
    simp at hmem

theorem reachableND_invND {hf : K → Nat} {h : HashMap K V}
    (hr : ReachableND hf h) : InvND hf h := by
  induction hr with
  | new => exact invND_new hf
  | set h k v _ ih => exact (Set_invND_binding hf h k v ih).1
  | clear h _ => exact invND_new hf

/-- Folding further `Set`s of keys different from `k` over a delete-free
table preserves an existing binding of `k`. -/
theorem foldl_Set_pres_binding (hf : K → Nat) (k : K) (v : V) :
    ∀ (ops : List (K × V)) (acc : HashMap K V), InvND hf acc →
      Get hf acc k = (some v, true) → (∀ p ∈ ops, p.1 ≠ k) →
      Get hf (ops.foldl (fun acc p => Set hf acc p.1 p.2) acc) k = (some v, true) := by
  intro ops
  induction ops with
  | nil => intro acc _ hbind _; simpa using hbind
  | cons p ops ih =>
    intro acc hnd hbind hops
    obtain ⟨ha, hpres, -⟩ := Set_invND_binding hf acc p.1 p.2 hnd
    have hkne : k ≠ p.1 := fun he => (hops p (by simp)) he.symm
    rw [List.foldl_cons]
    exact ih (Set hf acc p.1 p.2) ha (hpres k v hkne hbind)
      (fun q hq => hops q (by simp [hq]))

/-! ### The probe sequence in closed form (claim C2) -/

/-- The incremental masking `idx = (idx + count) & (capacity - 1)` of the
source loop equals the closed-form triangular position sequence
`(init + i*(i+1)/2) & (capacity - 1)`, step by step. -/
theorem findAux_eq_specProbe {t : List (Option (Pair K V))} {cap n : Nat} {key : K}
    (init : Nat) (hcap : cap = 2 ^ n) :
    ∀ (fuel count idx : Nat), idx = (init + count * (count + 1) / 2) &&& (cap - 1) →
      findAux t cap key idx count fuel =
        specProbe t cap key (fun i => (init + i * (i + 1) / 2) &&& (cap - 1)) count fuel := by
  intro fuel
  induction fuel with
  | zero =>
    intro count idx hidx
    rw [findAux, specProbe, hidx]
  | succ f ih =>
    intro count idx hidx
    subst hidx
    rw [findAux, specProbe]
    cases hslot : t.getD ((init + count * (count + 1) / 2) &&& (cap - 1)) none with
    | none => simp only [hslot]
    | some p =>
      simp only [hslot]
      by_cases hk : p.Key = key
      · rw [if_pos hk, if_pos hk]
      · rw [if_neg hk, if_neg hk]
        by_cases hbreak : count + 1 ≥ cap
        · rw [if_pos hbreak, if_pos hbreak]
        · rw [if_neg hbreak, if_neg hbreak]
          apply ih
          have hmask : ∀ x : Nat, x &&& (cap - 1) = x % cap := by
            intro x
            rw [hcap]
            exact and_mask_eq_mod x n
          rw [hmask, hmask, hmask, Nat.mod_add_mod]
          have htri : count * (count + 1) / 2 + (count + 1) =
              (count + 1) * (count + 2) / 2 := (tri_succ count).symm
          rw [Nat.add_assoc, htri]

/-- `find` follows exactly the triangular probe sequence of the spec:
start at `index(hash(key))`, stop at an empty slot or a match, and the
`i`-th probe visits `(initial_index + i*(i+1)/2) & (capacity - 1)`. -/
theorem find_eq_triangularSearch (hf : K → Nat) (h : HashMap K V) (key : K)
    (hpow : ∃ n, h.capacity = 2 ^ n) :
    find hf h key = triangularSearch hf h key := by
  obtain ⟨n, hn⟩ := hpow
  have hpos : 0 < h.capacity := by rw [hn]; exact Nat.pos_pow_of_pos n (by omega)
  have hinit : index h (hf key % 2 ^ 32) < h.capacity := index_lt h _ hpos
  unfold find triangularSearch
  apply findAux_eq_specProbe _ hn
  rw [Nat.zero_mul, Nat.zero_div, Nat.add_zero, hn, and_mask_eq_mod]
  rw [← hn]
  exact (Nat.mod_eq_of_lt hinit).symm

/-! ### Structure of the long-input hash path (claim C7) -/

theorem getD_drop (l : List Nat) (o m : Nat) : (l.drop o).getD m 0 = l.getD (o + m) 0 := by
  simp [List.getD_eq_getElem?_getD, List.getElem?_drop]

theorem getD_take (l : List Nat) (n m : Nat) (h : m < n) :
    (l.take n).getD m 0 = l.getD m 0 := by
  simp [List.getD_eq_getElem?_getD, List.getElem?_take, h]

theorem le32_drop (l : List Nat) (o m : Nat) : le32 (l.drop o) m = le32 l (o + m) := by
  unfold le32
  rw [getD_drop, getD_drop, getD_drop, getD_drop,
    show o + (m + 1) = o + m + 1 from by omega,
    show o + (m + 2) = o + m + 2 from by omega,
    show o + (m + 3) = o + m + 3 from by omega]

theorem le64_drop (l : List Nat) (o m : Nat) : le64 (l.drop o) m = le64 l (o + m) := by
  unfold le64
  rw [le32_drop, le32_drop, show o + (m + 4) = o + m + 4 from by omega]

theorem le32_take (l : List Nat) (n m : Nat) (h : m + 4 ≤ n) :
    le32 (l.take n) m = le32 l m := by
  unfold le32
  rw [getD_take _ _ _ (by omega), getD_take _ _ _ (by omega),
    getD_take _ _ _ (by omega), getD_take _ _ _ (by omega)]

theorem le64_take (l : List Nat) (n m : Nat) (h : m + 8 ≤ n) :
    le64 (l.take n) m = le64 l m := by
  unfold le64
  rw [le32_take _ _ _ (by omega), le32_take _ _ _ (by omega)]

theorem chunks48_rec (l : List Nat) (h : 48 ≤ l.length) :
    chunks48 l = ((l.take 48) :: (chunks48 (l.drop 48)).1, (chunks48 (l.drop 48)).2) := by
  rw [chunks48]
  simp [h]

theorem chunks48_base (l : List Nat) (h : ¬ 48 ≤ l.length) : chunks48 l = ([], l) := by
  rw [chunks48]
  simp [h]

/-- The remainder produced by `chunks48` is the final suffix of the input. -/
theorem chunks48_rem : ∀ (m : Nat) (l : List Nat), l.length ≤ m →
    (chunks48 l).2 = l.drop (l.length - (chunks48 l).2.length) ∧
    (chunks48 l).2.length ≤ l.length := by
  intro m
  induction m with
  | zero =>
    intro l hl
    have h48 : ¬ 48 ≤ l.length := by omega
    rw [chunks48_base l h48]
    simp
  | succ m ih =>
    intro l hl
    by_cases h48 : 48 ≤ l.length
    · rw [chunks48_rec l h48]
      dsimp only
      have hdl : (l.drop 48).length = l.length - 48 := by simp
      obtain ⟨h1, h2⟩ := ih (l.drop 48) (by rw [hdl]; omega)
      rw [hdl] at h2
      constructor
      · conv_lhs => rw [h1]
        rw [List.drop_drop, hdl]
        congr 1
        omega
      · omega
    · rw [chunks48_base l h48]
      simp

/-- The source's index-based 48-byte block loop computes the fold of
`blockStep` over the leading blocks, and its final `i` is the length of
the remainder. -/
theorem blockLoop_chunks (d : List Nat) :
    ∀ (fuel i s a b : Nat), i ≤ fuel → i ≤ d.length →
      blockLoop d d.length fuel i s a b =
        ((chunks48 (d.drop (d.length - i))).2.length,
         (chunks48 (d.drop (d.length - i))).1.foldl blockStep (s, a, b)) := by
  intro fuel
  induction fuel with
  | zero =>
    intro i s a b hif hil
    have hi0 : i = 0 := by omega
    subst hi0
    rw [blockLoop]
    rw [show d.length - 0 = d.length from by omega, List.drop_length,
      chunks48_base [] (by simp)]
    simp
  | succ f ih =>
    intro i s a b hif hil
    rw [blockLoop]
    by_cases h48 : i ≥ 48
    · rw [if_pos h48]
      have hsuf_len : (d.drop (d.length - i)).length = i := by
        simp
        omega
      have hsuf48 : 48 ≤ (d.drop (d.length - i)).length := by omega
      rw [chunks48_rec _ hsuf48]
      have hdrop : (d.drop (d.length - i)).drop 48 = d.drop (d.length - (i - 48)) := by
        rw [List.drop_drop]
        congr 1
        omega
      have hstep : blockStep (s, a, b) ((d.drop (d.length - i)).take 48) =
          (mix (le64 d (d.length - i) ^^^ secret0)
            (le64 d (d.length - i + 8) ^^^ s),
           mix (le64 d (d.length - i + 16) ^^^ secret1)
            (le64 d (d.length - i + 24) ^^^ a),
           mix (le64 d (d.length - i + 32) ^^^ secret2)
            (le64 d (d.length - i + 40) ^^^ b)) := by
        unfold blockStep
        rw [le64_take _ _ _ (by omega), le64_take _ _ _ (by omega),
          le64_take _ _ _ (by omega), le64_take _ _ _ (by omega),
          le64_take _ _ _ (by omega), le64_take _ _ _ (by omega)]
        rw [le64_drop, le64_drop, le64_drop, le64_drop, le64_drop, le64_drop]
        simp only [Nat.add_zero]
      rw [List.foldl_cons, hstep, hdrop]
      exact ih (i - 48) _ _ _ (by omega) (by omega)
    · rw [if_neg h48]
      have hsuf_len : (d.drop (d.length - i)).length = i := by
        simp
        omega
      have hsuf48 : ¬ 48 ≤ (d.drop (d.length - i)).length := by omega
      rw [chunks48_base _ hsuf48]
      simp [hsuf_len]

/-- The code's long-input path (with its `i > 48` guard) equals the
structured description: block fold only for inputs longer than 48 bytes,
then the tail passes on the remainder. -/
theorem Hash_eq_HashStruct (data : List Nat) (seedIn : Nat) (hlen : 16 < data.length) :
    Hash data seedIn = HashStruct data seedIn := by
  have hnle : ¬ data.length ≤ 16 := by omega
  by_cases h48 : data.length > 48
  · have hbl := blockLoop_chunks data data.length data.length
      (seedIn ^^^ mix (seedIn ^^^ secret0) secret1 ^^^ data.length)
      (seedIn ^^^ mix (seedIn ^^^ secret0) secret1 ^^^ data.length)
      (seedIn ^^^ mix (seedIn ^^^ secret0) secret1 ^^^ data.length)
      (le_refl _) (le_refl _)
    rw [show data.length - data.length = 0 from by omega, List.drop_zero] at hbl
    have hrem := (chunks48_rem data.length data (le_refl _)).1
    have hread : ∀ j, le64 ((chunks48 data).2) j =
        le64 data (data.length - (chunks48 data).2.length + j) := by
      intro j
      conv_lhs => rw [hrem]
      rw [le64_drop]
    simp only [Hash, HashStruct, if_neg hnle, if_pos h48, hbl]
    simp only [hread, Nat.add_zero]
  · simp only [Hash, HashStruct, if_neg hnle, if_neg h48, List.foldl_nil,
      Nat.xor_self, Nat.zero_xor]
    rw [show data.length - data.length = 0 from by omega]

/-! ### Small helper for searches over an empty table -/

theorem findAux_empty {t : List (Option (Pair K V))} {cap : Nat} {key : K}
    {idx count fuel : Nat} (h : t.getD idx none = none) :
    findAux t cap key idx count fuel = (idx, false) := by
  cases fuel with
  | zero => rw [findAux]
  | succ f => rw [findAux]; simp only [h]

/-! ### The claims -/

/-- C1 (counterexample): the round-trip claim fails as stated.  With the
source's constant-0 hash for non-string keys, after `Set 1 10; Set 2 20`
the key 2 sits one probe past key 1; deleting the *other* key 1 clears a
slot on key 2's probe sequence, and `Get 2` then reports not-found even
though 2 was never deleted or overwritten. -/
theorem claim1_counterexample :
    Get hashDefault (Set hashDefault (Set hashDefault (New : HashMap Nat Nat) 1 10) 2 20) 2 =
      (some 20, true) ∧
    Get hashDefault ((Delete hashDefault
      (Set hashDefault (Set hashDefault (New : HashMap Nat Nat) 1 10) 2 20) 1).1) 2 =
      (none, false) := by decide

/-- C1 (amended): on any table reachable from `New` by `Set` and `Clear`
alone (no `Delete` anywhere in the history), after `Set k v` the lookup
`Get k` returns `(v, true)` through any further sequence of `Set`
operations on other keys — including those that trigger rehashes — until
`k` itself is overwritten.  Intervening `Delete`s had to be dropped from
the claim: the counterexample shows a `Delete` of another key can break
the binding. -/
theorem claim1_roundtrip_amended (hf : K → Nat) (h : HashMap K V) (k : K) (v : V)
    (ops : List (K × V)) (hr : ReachableND hf h) (hops : ∀ p ∈ ops, p.1 ≠ k) :
    Get hf (ops.foldl (fun acc p => Set hf acc p.1 p.2) (Set hf h k v)) k =
      (some v, true) := by
  have hnd := reachableND_invND hr
  obtain ⟨ha, -, hb⟩ := Set_invND_binding hf h k v hnd
  exact foldl_Set_pres_binding hf k v ops (Set hf h k v) ha hb hops

theorem claim1_roundtrip_amended_witness :
    (∀ p ∈ [((2 : Nat), (7 : Nat))], p.1 ≠ 1) ∧
    Get hashDefault ([((2 : Nat), (7 : Nat))].foldl
      (fun acc p => Set hashDefault acc p.1 p.2)
      (Set hashDefault (New : HashMap Nat Nat) 1 5)) 1 = (some 5, true) :=
  ⟨by decide,
   claim1_roundtrip_amended hashDefault New 1 5 [(2, 7)] ReachableND.new (by decide)⟩

/-- C2 (counterexample): the claim's formula "the i-th probe visits
`(initial_index + i) & (capacity - 1)`" describes linear probing; the
source advances by `idx = (idx + count) & (capacity - 1)`, i.e.
triangular offsets.  On the table built by `Set 1; Set 2; Set 3` with
the constant-0 hash, the source's `find 3` probes slots 0, 1, 3 and
finds key 3 at slot 3, while the claimed linear sequence would stop at
the empty slot 2 and report not-found. -/
theorem claim2_counterexample :
    find hashDefault (Set hashDefault (Set hashDefault (Set hashDefault
      (New : HashMap Nat Nat) 1 10) 2 20) 3 30) 3 = (3, true) ∧
    linearSearchClaim hashDefault (Set hashDefault (Set hashDefault (Set hashDefault
      (New : HashMap Nat Nat) 1 10) 2 20) 3 30) 3 = (2, false) := by decide

/-- C2 (amended): the search starts at `index(hash(key))`, stops at an
empty slot reporting not-found or at a slot holding the key reporting
found, the `i`-th probe visits `(initial_index + i*(i+1)/2) & (capacity - 1)`
(equivalently `(previous_index + i) & (capacity - 1)`), and it terminates
unsuccessfully after visiting `capacity` slots: `find` equals the
triangular reference search whenever the capacity is a power of two. -/
theorem claim2_probe_amended (hf : K → Nat) (h : HashMap K V) (key : K)
    (hpow : ∃ n, Capacity h = 2 ^ n) :
    find hf h key = triangularSearch hf h key :=
  find_eq_triangularSearch hf h key hpow

theorem claim2_probe_amended_witness :
    (∃ n, Capacity (New : HashMap Nat Nat) = 2 ^ n) ∧
    find hashDefault (New : HashMap Nat Nat) 5 =
      triangularSearch hashDefault (New : HashMap Nat Nat) 5 :=
  ⟨⟨3, by decide⟩, claim2_probe_amended hashDefault New 5 ⟨3, by decide⟩⟩

/-- C3 (confirmed): on every table reachable from `New` by the public
operations, the capacity is a power of two at least 8 and
`Size * 2 < Capacity` holds. -/
theorem claim3_capacity_invariants (hf : K → Nat) (h : HashMap K V)
    (hr : Reachable hf h) :
    (∃ n, Capacity h = 2 ^ n) ∧ 8 ≤ Capacity h ∧ Size h * 2 < Capacity h := by
  have hc := reachable_invCore hr
  exact ⟨hc.pow, hc.cap8, hc.load⟩

theorem claim3_capacity_invariants_witness :
    (∃ n, Capacity ((Delete hashDefault
      (Set hashDefault (New : HashMap Nat Nat) 1 2) 1).1) = 2 ^ n) ∧
    8 ≤ Capacity ((Delete hashDefault
      (Set hashDefault (New : HashMap Nat Nat) 1 2) 1).1) ∧
    Size ((Delete hashDefault (Set hashDefault (New : HashMap Nat Nat) 1 2) 1).1) * 2 <
      Capacity ((Delete hashDefault (Set hashDefault (New : HashMap Nat Nat) 1 2) 1).1) :=
  claim3_capacity_invariants hashDefault _
    (Reachable.del _ 1 (Reachable.set _ 1 2 Reachable.new))

/-- C4 (confirmed, with `CaseFoldingHash` modelled from the spec): the
sequence `set "a" 1; set "b" 2; set "c" 3; set "d" 4` keeps capacity 8
through the first three inserts, the 4th insert satisfies the load
trigger `(3+1)*2 ≥ 8` and performs the rehash to capacity 16 *before*
inserting (the rehashed table holds the 3 old pairs), and afterwards
`capacity = 16`, `size = 4`, and all four keys are retrievable. -/
theorem claim4_scenarioA :
    Capacity scenA1 = 8 ∧ Capacity scenA2 = 8 ∧ Capacity scenA3 = 8 ∧
    (Size scenA3 + 1) * maximumLoad ≥ Capacity scenA3 ∧
    scenA4 = setBody hashString (rehash 2 hashString scenA3) keyD 4 ∧
    Capacity (rehash 2 hashString scenA3) = 16 ∧ Size (rehash 2 hashString scenA3) = 3 ∧
    Capacity scenA4 = 16 ∧ Size scenA4 = 4 ∧
    Get hashString scenA4 keyA = (some 1, true) ∧ Get hashString scenA4 keyB = (some 2, true) ∧
    Get hashString scenA4 keyC = (some 3, true) ∧ Get hashString scenA4 keyD = (some 4, true) := by
  decide

/-- C5 (confirmed): for every 64-bit input, `MaskTop8Bits` returns the
low 24 bits when they are non-zero and the sentinel `2^23` otherwise;
the result is never 0 and always fits in 24 bits. -/
theorem claim5_mask (h : Nat) (hlt : h < 2 ^ 64) :
    MaskTop8Bits h = (if h % 2 ^ 24 = 0 then 2 ^ 23 else h % 2 ^ 24) ∧
    MaskTop8Bits h ≠ 0 ∧ MaskTop8Bits h < 2 ^ 24 := by
  have hmask : h &&& ((1 <<< (32 - FlagCount)) - 1) = h % 2 ^ 24 := by
    rw [show ((1 <<< (32 - FlagCount)) : Nat) = 2 ^ 24 from by decide]
    exact and_mask_eq_mod h 24
  refine ⟨?_, ?_, ?_⟩
  · simp only [MaskTop8Bits, hmask]
    by_cases h0 : h % 2 ^ 24 = 0
    · rw [if_pos h0, if_pos h0]; decide
    · rw [if_neg h0, if_neg h0]
  · simp only [MaskTop8Bits, hmask]
    by_cases h0 : h % 2 ^ 24 = 0
    · rw [if_pos h0]; decide
    · rw [if_neg h0]; exact h0
  · simp only [MaskTop8Bits, hmask]
    by_cases h0 : h % 2 ^ 24 = 0
    · rw [if_pos h0]; decide
    · rw [if_neg h0]
      exact Nat.mod_lt _ (by decide)

theorem claim5_mask_witness :
    ((0 : Nat) < 2 ^ 64) ∧
    (MaskTop8Bits 0 = (if (0 : Nat) % 2 ^ 24 = 0 then 2 ^ 23 else 0 % 2 ^ 24) ∧
     MaskTop8Bits 0 ≠ 0 ∧ MaskTop8Bits 0 < 2 ^ 24) :=
  ⟨by decide, claim5_mask 0 (by decide)⟩

/-- C6 (counterexample): "if the key is present, Delete returns true"
fails.  After `Set 1 10; Set 2 20; Delete 1` (constant-0 hash), key 2 is
still stored — it is the only key in the table — yet `Delete 2` returns
`false` and leaves the table unchanged, because the probe for key 2 hits
the slot emptied by `Delete 1` first. -/
theorem claim6_counterexample :
    keysList ((Delete hashDefault (Set hashDefault (Set hashDefault
      (New : HashMap Nat Nat) 1 10) 2 20) 1).1).table = [2] ∧
    Delete hashDefault ((Delete hashDefault (Set hashDefault (Set hashDefault
      (New : HashMap Nat Nat) 1 10) 2 20) 1).1) 2 =
      ((Delete hashDefault (Set hashDefault (Set hashDefault
        (New : HashMap Nat Nat) 1 10) 2 20) 1).1, false) := by decide

/-- C6 (amended): `Delete` returns `true` exactly when the probe search
locates the key: in that case the located slot indeed holds the key, the
slot is cleared to empty, and the size decreases by exactly one; when
the search misses — which is always the case when the key is absent, but
can also happen for a present key whose probe path crosses a previously
deleted slot — it returns `false` and leaves the table entirely
unchanged. -/
theorem claim6_delete_amended (hf : K → Nat) (h : HashMap K V) (k : K)
    (hr : Reachable hf h) :
    (∀ s, find hf h k = (s, true) →
      (∃ p, h.table.getD s none = some p ∧ p.Key = k) ∧
      Delete hf h k = ({ h with table := h.table.set s none, size := h.size - 1 }, true) ∧
      1 ≤ Size h ∧ Size (Delete hf h k).1 + 1 = Size h) ∧
    (∀ s, find hf h k = (s, false) → Delete hf h k = (h, false)) ∧
    (k ∉ keysList h.table → Delete hf h k = (h, false)) := by
  have hc := reachable_invCore hr
  refine ⟨?_, ?_, ?_⟩
  · intro s hfind
    obtain ⟨p, hp, hpk⟩ := find_true_slot hfind
    have hocc := occCount_set_none_of_some h.table s p hp
    have hsz := hc.sz
    have hsz1 : 1 ≤ Size h := by
      show 1 ≤ h.size
      omega
    refine ⟨⟨p, hp, hpk⟩, Delete_found_eq hfind, hsz1, ?_⟩
    rw [Delete_found_eq hfind]
    show h.size - 1 + 1 = h.size
    omega
  · intro s hfind
    exact Delete_notfound_eq hfind
  · intro hmem
    have hnot := notfound_of_not_mem hf hmem
    rcases hfind : find hf h k with ⟨s, b⟩
    rw [hfind] at hnot
    cases b with
    | false => exact Delete_notfound_eq hfind
    | true => simp at hnot

theorem claim6_delete_amended_witness :
    ((∀ s, find hashDefault (Set hashDefault (New : HashMap Nat Nat) 1 10) 1 = (s, true) →
      (∃ p, (Set hashDefault (New : HashMap Nat Nat) 1 10).table.getD s none = some p ∧
        p.Key = 1) ∧
      Delete hashDefault (Set hashDefault (New : HashMap Nat Nat) 1 10) 1 =
        ({ Set hashDefault (New : HashMap Nat Nat) 1 10 with
            table := (Set hashDefault (New : HashMap Nat Nat) 1 10).table.set s none,
            size := (Set hashDefault (New : HashMap Nat Nat) 1 10).size - 1 }, true) ∧
      1 ≤ Size (Set hashDefault (New : HashMap Nat Nat) 1 10) ∧
      Size (Delete hashDefault (Set hashDefault (New : HashMap Nat Nat) 1 10) 1).1 + 1 =
        Size (Set hashDefault (New : HashMap Nat Nat) 1 10)) ∧
    (∀ s, find hashDefault (Set hashDefault (New : HashMap Nat Nat) 1 10) 1 = (s, false) →
      Delete hashDefault (Set hashDefault (New : HashMap Nat Nat) 1 10) 1 =
        (Set hashDefault (New : HashMap Nat Nat) 1 10, false)) ∧
    ((1 : Nat) ∉ keysList (Set hashDefault (New : HashMap Nat Nat) 1 10).table →
      Delete hashDefault (Set hashDefault (New : HashMap Nat Nat) 1 10) 1 =
        (Set hashDefault (New : HashMap Nat Nat) 1 10, false))) :=
  claim6_delete_amended hashDefault _ 1 (Reachable.set _ 1 10 Reachable.new)

/-- C7 (counterexample): the claim says an input of exactly 48 bytes is
processed as one 48-byte block.  The source enters the block phase only
when `i > 48`, so a 48-byte input goes entirely through the tail path;
the claim-shaped variant `HashClaim` (identical except for an `i ≥ 48`
guard) disagrees with the source's `Hash` on a concrete 48-byte input. -/
theorem claim7_counterexample :
    HashClaim ((List.range 48).map (fun i => (i * 7 + 3) % 256)) SEED ≠
      Hash ((List.range 48).map (fun i => (i * 7 + 3) % 256)) SEED := by decide

/-- C7 (amended): for inputs longer than 16 bytes, the block phase runs
only when the input is strictly longer than 48 bytes (an input of
exactly 48 bytes is handled entirely by the tail path); in the block
phase the buffer is processed from the front in 48-byte blocks while at
least 48 bytes remain, with three rolling seeds XORed together after the
loop; then on the remaining tail one mixing pass against
`secret2`/`secret1` is performed when more than 16 bytes remain, plus
one additional pass against `secret2` when more than 32 bytes remain. -/
theorem claim7_blocks_amended (data : List Nat) (seed : Nat) (hlen : 16 < data.length) :
    Hash data seed = HashStruct data seed :=
  Hash_eq_HashStruct data seed hlen

theorem claim7_blocks_amended_witness :
    16 < ((List.range 48).map (fun i => (i * 7 + 3) % 256)).length ∧
    Hash ((List.range 48).map (fun i => (i * 7 + 3) % 256)) SEED =
      HashStruct ((List.range 48).map (fun i => (i * 7 + 3) % 256)) SEED :=
  ⟨by decide, claim7_blocks_amended _ SEED (by decide)⟩

/-- C8 (counterexample): the claim says hashing is never silently
defaulted to a degenerate constant for non-textual key types; but the
source's `hash` returns the constant 0 for every non-string key (here
`Int` keys), so distinct keys collide on the same initial probe index. -/
theorem claim8_counterexample :
    hashDefault (1 : Int) = 0 ∧ hashDefault (37 : Int) = 0 ∧
    index (New : HashMap Int Nat) (hashDefault (1 : Int) % 2 ^ 32) =
      index (New : HashMap Int Nat) (hashDefault (37 : Int) % 2 ^ 32) := by decide

/-- C8 (amended): the code *does* silently assign the degenerate constant
hash 0 to keys of any non-string type, so all such keys share one probe
chain: every `Int` key hashes to 0 and any two `Int` keys get the same
initial probe index in any table. -/
theorem claim8_default_hash_amended (k k2 : Int) (h : HashMap Int Nat) :
    hashDefault k = 0 ∧
    index h (hashDefault k % 2 ^ 32) = index h (hashDefault k2 % 2 ^ 32) :=
  ⟨rfl, rfl⟩

/-- C9 (confirmed): `Clear` yields the same state no matter what table it
is applied to — size 0 and capacity 8 — both on an empty table and on a
populated or grown one; it is idempotent, and every previously stored
key becomes unretrievable. -/
theorem claim9_clear (h g : HashMap K V) (hf : K → Nat) (k : K) :
    Clear h = Clear g ∧ Size (Clear h) = 0 ∧ Capacity (Clear h) = 8 ∧
    Clear (Clear h) = Clear h ∧ Get hf (Clear h) k = (none, false) := by
  refine ⟨rfl, rfl, rfl, rfl, ?_⟩
  have hfindC : find hf (Clear h) k = (index (Clear h) (hf k % 2 ^ 32), false) := by
    unfold find
    exact findAux_empty (getD_replicate_none _ _)
  rw [Get_notfound_eq hfindC]

/-- C10 (confirmed): on every reachable table the `size` field equals the
number of occupied slots, so a full iteration yields exactly `Size`
key-value pairs. -/
theorem claim10_size_occupancy (hf : K → Nat) (h : HashMap K V)
    (hr : Reachable hf h) :
    Size h = occCount h.table ∧ (Iter h).length = Size h := by
  have hc := reachable_invCore hr
  exact ⟨hc.sz, hc.sz.symm⟩

theorem claim10_size_occupancy_witness :
    Size ((Delete hashDefault (Set hashDefault (Set hashDefault
      (New : HashMap Nat Nat) 1 10) 2 20) 1).1) =
      occCount ((Delete hashDefault (Set hashDefault (Set hashDefault
        (New : HashMap Nat Nat) 1 10) 2 20) 1).1).table ∧
    (Iter ((Delete hashDefault (Set hashDefault (Set hashDefault
      (New : HashMap Nat Nat) 1 10) 2 20) 1).1)).length =
      Size ((Delete hashDefault (Set hashDefault (Set hashDefault
        (New : HashMap Nat Nat) 1 10) 2 20) 1).1) :=
  claim10_size_occupancy hashDefault _
    (Reachable.del _ 1 (Reachable.set _ 2 20 (Reachable.set _ 1 10 Reachable.new)))

end Hashmap
